import Mathlib

/-!
# Verification of the fathom-to-umami reconstruction engine

Shallow embedding of the core of the `fathom-to-umami` repository:

* `get_marginal_totals` (simple_ipf.py, lines 37-92): marginal extraction,
  including the synthetic `"(direct)"` referrer category;
* `run_ipf_for_weights` / `apply_marginal_constraint_simple`
  (exact_ipf.py, lines 46-117): iterative proportional fitting of a joint
  weight table;
* `solve_integer_assignment` (exact_ipf.py, lines 119-177) and
  `solve_exact_distribution` (exact_ipf.py, lines 10-44): greedy integer
  assignment honoring per-dimension quotas;
* `reconstruct_marginals_from_events` / `compare_marginals`
  (validate_reconstruction.py, lines 9-63): round-trip verification;
* `create_session_visits` (full_pipeline.py, lines 14-52;
  fathom_to_umami_converter.py, lines 268-299): the session composer's
  partition of the event list into bounce and multi-page visits.

Python dictionaries keyed by strings are embedded as insertion-ordered
association lists (`Dict`), with `alGet` playing the role of
`dict.get(key, 0)` and `alSet` the role of item assignment.  Python's
arbitrary-precision `int` is embedded as `Int`; `float` arithmetic in the
IPF engine is embedded as exact rational (`ℚ`) arithmetic.  Code that can
raise (`max()` of an empty sequence, division by zero) is embedded with
`Option`, `none` marking the raising path.  A joint combination
(`combo_dict` in the source, a dict over `dim_names`) is embedded
positionally as a `List String` aligned with `dim_names`.
-/

/-- Association list embedding a Python `dict` from strings to integers. -/
abbrev Dict := List (String × Int)

/-- `d.get(k, 0)`: value at the first occurrence of key `k`, defaulting to 0. -/
def alGet (l : Dict) (k : String) : Int :=
  match l.find? (fun p => p.1 == k) with
  | some p => p.2
  | none => 0

/-- `d[k] = v`: overwrite the value at key `k`, appending the key if absent
(insertion-order semantics of a Python dict). -/
def alSet (l : Dict) (k : String) (v : Int) : Dict :=
  if l.any (fun p => p.1 == k) then
    l.map (fun p => if p.1 == k then (k, v) else p)
  else
    l ++ [(k, v)]

/-- `d[k] = d.get(k, 0) + v`: the accumulation idiom used throughout
`get_marginal_totals`. -/
def alAdd (l : Dict) (k : String) (v : Int) : Dict :=
  alSet l k (alGet l k + v)

/-- Folding rows `(value, count)` into a dict, as in the per-dimension loops
of `get_marginal_totals` (simple_ipf.py, lines 50-83). -/
def accumRows (rows : List (String × Int)) : Dict :=
  rows.foldl (fun acc r => alAdd acc r.1 r.2) []

/-- `sum(d.values())`. -/
def sumVals (l : Dict) : Int :=
  (l.map Prod.snd).sum

/-- The nested marginals mapping `dimension → (category value → count)`. -/
abbrev Marginals := List (String × Dict)

/-- `marginals[d]` with an empty dict as default (only used off the raising
path; at every call site of the source the key is present). -/
def mSet (m : Marginals) (d : String) : Dict :=
  match m.find? (fun p => p.1 == d) with
  | some p => p.2
  | none => []

/-- One time bucket of raw rows, with count fields already coerced to
integers (the source's `safe_int`, simple_ipf.py lines 42-46, coerces
missing or malformed count strings to 0 before the code embedded here
runs; parsing itself is outside the embedded core).  `site` holds the
`Pageviews` column of the Site.csv rows for the bucket. -/
structure HourlyData where
  site : List Int
  pages : List (String × Int)
  browsers : List (String × Int)
  countries : List (String × Int)
  devices : List (String × Int)
  referrers : List (String × Int)

/-- `get_marginal_totals` (simple_ipf.py, lines 37-92): per-dimension
accumulation plus the synthetic `"(direct)"` referrer category added when
the explicit referrer counts sum to strictly less than the site total. -/
def get_marginal_totals (h : HourlyData) : Marginals :=
  let total_pageviews := h.site.sum
  let pages := accumRows h.pages
  let browsers := accumRows h.browsers
  let countries := accumRows h.countries
  let devices := accumRows h.devices
  let referrers := accumRows h.referrers
  let referrer_total := sumVals referrers
  let direct_visits := total_pageviews - referrer_total
  let referrers2 :=
    if 0 < direct_visits then alSet referrers "(direct)" direct_visits
    else referrers
  [("pages", pages), ("browsers", browsers), ("countries", countries),
   ("devices", devices), ("referrers", referrers2)]

/-! ## The greedy integer assignment solver (exact_ipf.py, lines 119-177) -/

/-- A joint combination: one category value per active dimension, aligned
positionally with `dim_names` (the source's `combo_dict`, always built and
read over exactly the keys `dim_names`). -/
abbrev Combo := List String

/-- The solver's `remaining_quotas` state: per dimension and category value
the remaining integer capacity.  Embedded as a function; it is initialized
from the marginals dicts and updated pointwise. -/
abbrev Quotas := String → String → Int

/-- State of the greedy assignment loop: emitted events, remaining quotas,
and the remaining global event count. -/
structure AState where
  events : List Combo
  quotas : Quotas
  remaining : Int

/-- `remaining_quotas = {dim: totals.copy()}` (exact_ipf.py, lines 126-128). -/
def initQuotas (m : Marginals) : Quotas :=
  fun d v => alGet (mSet m d) v

/-- Lines 150-155: `max_assignable = remaining_events`, then
`max_assignable = min(max_assignable, quota_left)` for each dimension. -/
def maxAssignable (dN : List String) (q : Quotas) (c : Combo) (re : Int) : Int :=
  (dN.zip c).foldl (fun acc p => min acc (q p.1 p.2)) re

/-- Lines 163-165: `remaining_quotas[dim_name][dim_value] -= max_assignable`
for each dimension. -/
def decQuotas (dN : List String) (q : Quotas) (c : Combo) (n : Int) : Quotas :=
  (dN.zip c).foldl
    (fun q2 p => fun d v => if d = p.1 ∧ v = p.2 then q2 d v - n else q2 d v) q

/-- One iteration of the greedy loop body (exact_ipf.py, lines 144-167).
The source `break`s once `remaining_events <= 0`; since the body is a
no-op in that case, the break is embedded as a guard. -/
def assignStep (dN : List String) (s : AState) (c : Combo) : AState :=
  if s.remaining ≤ 0 then s
  else
    let n := maxAssignable dN s.quotas c s.remaining
    if 0 < n then
      { events := s.events ++ List.replicate n.toNat c
        quotas := decQuotas dN s.quotas c n
        remaining := s.remaining - n }
    else s

/-- The full greedy pass over an already-ordered combination list. -/
def runAssign (dN : List String) (m : Marginals) (total : Int)
    (combos : List Combo) : AState :=
  combos.foldl (assignStep dN) ⟨[], initQuotas m, total⟩

/-- The IPF weight table: joint combination → rational weight
(`table` in the source; float weights are embedded as exact rationals). -/
abbrev WTable := List (Combo × ℚ)

/-- `weights_table.get(combo_tuple, 0)` (exact_ipf.py, line 134). -/
def wGet (wt : WTable) (c : Combo) : ℚ :=
  match wt.find? (fun e => e.1 == c) with
  | some e => e.2
  | none => 0

/-- Lines 131-137: pair every combination with its weight and stable-sort
descending by weight (`combo_weights.sort(key=..., reverse=True)`). -/
def sortCombosByWeight (combos : List Combo) (wt : WTable) : List Combo :=
  ((combos.map (fun c => (c, wGet wt c))).mergeSort
    (fun a b => decide (b.2 ≤ a.2))).map Prod.fst

/-- `solve_integer_assignment` (exact_ipf.py, lines 119-177), with its full
final loop state exposed (the source returns only `events`; `quotas` and
`remaining` are the values of `remaining_quotas` and `remaining_events` at
the end of the loop, which the commented-out diagnostics at lines 169-175
inspect). -/
def assignState (combos : List Combo) (dN : List String) (m : Marginals)
    (wt : WTable) (total : Int) : AState :=
  runAssign dN m total (sortCombosByWeight combos wt)

/-- `solve_integer_assignment`'s return value: the emitted event list. -/
def solve_integer_assignment (combos : List Combo) (dN : List String)
    (m : Marginals) (wt : WTable) (total : Int) : List Combo :=
  (assignState combos dN m wt total).events

/-! ## Round-trip verification (validate_reconstruction.py, lines 9-63) -/

/-- Re-aggregation of an event list at one dimension position: the number of
events whose value for that dimension is `v`.  This is the per-dimension
counting loop of `reconstruct_marginals_from_events` (lines 19-24). -/
def countVal (events : List Combo) (i : Nat) (v : String) : Nat :=
  (events.filter (fun c => c.getD i "" == v)).length

/-- `reconstruct_marginals_from_events` restricted to one dimension: the
defaultdict `reconstructed[dim][event[dim]] += 1` loop as a dict. -/
def reconstructDim (events : List Combo) (i : Nat) : Dict :=
  accumRows (events.map (fun c => (c.getD i "", 1)))

/-- The per-dimension comparison of `compare_marginals` (lines 43-55): over
the union of the key sets, original and reconstructed counts agree (missing
keys defaulting to 0).  The union of key sets is embedded as the
concatenation of the two key lists. -/
def dimMatches (orig recon : Dict) : Bool :=
  (orig.map Prod.fst ++ recon.map Prod.fst).all
    (fun k => alGet orig k == alGet recon k)

/-! ## The IPF weight estimator (exact_ipf.py, lines 46-117) -/

/-- Association list for the normalized (rational) marginals. -/
abbrev QDict := List (String × ℚ)

/-- `marginal_totals.get(dim_value, 0)` (exact_ipf.py, line 109). -/
def qalGet (l : QDict) (k : String) : ℚ :=
  match l.find? (fun p => p.1 == k) with
  | some p => p.2
  | none => 0

/-- The normalized marginals mapping of `run_ipf_for_weights`. -/
abbrev NMarg := List (String × QDict)

/-- `normalized_marginals[d]` (default only used off the call path). -/
def nmGet (nm : NMarg) (d : String) : QDict :=
  match nm.find? (fun p => p.1 == d) with
  | some p => p.2
  | none => []

/-- Lines 98-102: the current aggregated weight of category value `v` at
dimension position `i` (`current_marginals[dim_value]`). -/
def aggWeight (t : WTable) (i : Nat) (v : String) : ℚ :=
  (t.map (fun e => if e.1.getD i "" == v then e.2 else 0)).sum

/-- `apply_marginal_constraint_simple` (exact_ipf.py, lines 94-117):
rescale every combination's weight by `target / current` for its value of
the constraint dimension, pinning the weight to 0 when the current
aggregate is not positive. -/
def apply_marginal_constraint_simple (t : WTable) (dN : List String)
    (cd : String) (marg : QDict) : WTable :=
  let i := dN.indexOf cd
  t.map (fun e =>
    let cur := aggWeight t i (e.1.getD i "")
    if 0 < cur then (e.1, e.2 * (qalGet marg (e.1.getD i "") / cur))
    else (e.1, 0))

/-- One full IPF sweep (exact_ipf.py, lines 80-85): apply each dimension's
constraint in `dim_names` order. -/
def ipfSweep (dN : List String) (nm : NMarg) (t : WTable) : WTable :=
  dN.foldl
    (fun t2 d =>
      if (nm.find? (fun p => p.1 == d)).isSome then
        apply_marginal_constraint_simple t2 dN d (nmGet nm d)
      else t2) t

/-- Line 88: `sum(abs(table[k] - old_table.get(k, 0)) for k in table)`. -/
def totalChange (tnew told : WTable) : ℚ :=
  (tnew.map (fun e => |e.2 - wGet told e.1|)).sum

/-- The convergence tolerance of line 89 (`1e-8`). -/
def ipfTol : ℚ := 1 / 100000000

/-- The bounded IPF iteration (exact_ipf.py, lines 77-90): at most `fuel`
sweeps (`for iteration in range(50)`), breaking after the first sweep whose
total absolute change from the sweep's starting table falls below `ipfTol`.
Also returns the number of sweeps performed, which the source's loop
variable `iteration` counts. -/
def ipfIter (dN : List String) (nm : NMarg) : Nat → WTable → WTable × Nat
  | 0, t => (t, 0)
  | fuel + 1, t =>
    let t2 := ipfSweep dN nm t
    if totalChange t2 t < ipfTol then (t2, 1)
    else
      let r := ipfIter dN nm fuel t2
      (r.1, r.2 + 1)

/-- `sorted(totals.keys())` (exact_ipf.py, lines 20 and 52). -/
def pySorted (l : List String) : List String :=
  l.mergeSort (fun a b => decide (a ≤ b))

/-- Lines 17-20 / 49-52: active dimensions (nonempty marginal dicts) with
their sorted category domains. -/
def activeDims (m : Marginals) : List (String × List String) :=
  (m.filter (fun p => !p.2.isEmpty)).map
    (fun p => (p.1, pySorted (p.2.map Prod.fst)))

/-- `itertools.product` over the dimension domains (exact_ipf.py,
lines 27-30 and 59): all joint combinations, first axis varying slowest. -/
def enumCombos (domains : List (List String)) : List Combo :=
  domains.foldr (fun dom acc => dom.flatMap (fun v => acc.map (fun c => v :: c))) [[]]

/-- Lines 57-65: the uniform initial table (each combination `1.0`, then
normalized by the total, which is the number of combinations). -/
def initTable (domains : List (List String)) : WTable :=
  let combos := enumCombos domains
  let n : ℚ := combos.length
  combos.map (fun c => (c, 1 / n))

/-- `sum(totals.values())` for one marginals entry. -/
def dimSum (p : String × Dict) : Int :=
  sumVals p.2

/-- `run_ipf_for_weights` (exact_ipf.py, lines 46-92).  The source returns
the triple `(table, None, dim_names)` — the middle component is the literal
`None` on every path.  Two statements can raise and are embedded as `none`:
`max()` over an empty sequence (line 68, `ValueError` when `marginals` is
empty) and `v / total_events` (line 74, `ZeroDivisionError` when
`total_events == 0` and some dimension's dict is nonempty, so that the
normalization loop actually divides). -/
def run_ipf_for_weights (m : Marginals) :
    Option (WTable × Option Unit × List String) :=
  let dims := activeDims m
  let dN := dims.map Prod.fst
  let t0 := initTable (dims.map Prod.snd)
  match (m.map dimSum).max? with
  | none => none
  | some total =>
    if total = 0 ∧ m.any (fun p => !p.2.isEmpty) then none
    else
      let nm : NMarg := (m.filter (fun p => !p.2.isEmpty)).map
        (fun p => (p.1, p.2.map (fun r => (r.1, (r.2 : ℚ) / (total : ℚ)))))
      some ((ipfIter dN nm 50 t0).1, none, dN)

/-- `solve_exact_distribution` (exact_ipf.py, lines 10-44): returns `([], [])`
when no dimension has data; otherwise runs IPF for weights, takes
`total_events = max(sum(totals.values()))`, and hands the enumerated
combinations to the greedy integer assignment.  `none` is a propagated
raise from `run_ipf_for_weights` line 36 or `max` line 39. -/
def solve_exact_distribution (m : Marginals) :
    Option (List Combo × List Combo) :=
  let dims := activeDims m
  if dims.isEmpty then some ([], [])
  else
    let dN := dims.map Prod.fst
    let combos := enumCombos (dims.map Prod.snd)
    (run_ipf_for_weights m).bind fun r =>
      ((m.map dimSum).max?).map fun total =>
        (solve_integer_assignment combos dN m r.1 total, combos)

/-! ## The session/visit composer (full_pipeline.py, lines 14-52) -/

/-- Python's built-in `round`: nearest integer, ties to even. -/
def pyRound (q : ℚ) : ℤ :=
  let f := ⌊q⌋
  let r := q - f
  if r < 1 / 2 then f
  else if 1 / 2 < r then f + 1
  else if f % 2 = 0 then f else f + 1

/-- The multi-page distribution loop of `create_session_visits`
(full_pipeline.py, lines 43-50): visit `i` takes
`events_per_visit + (1 if i < remainder else 0)` events from the front of
the remaining list (`if events_copy` guards each pop), and only nonempty
visits are kept (`if visit`).  Embedded as recursion on the remaining
iteration count `fuel`, starting at index `i`. -/
def splitLoop (α : Type) (epv rem : Nat) : Nat → Nat → List α → List (List α)
  | _, 0, _ => []
  | i, fuel + 1, es =>
    let size := epv + (if i < rem then 1 else 0)
    let v := es.take size
    let rest := splitLoop α epv rem (i + 1) fuel (es.drop size)
    if v.isEmpty then rest else v :: rest

/-- The visit-partition portion of `create_session_visits`
(full_pipeline.py, lines 14-52; identically fathom_to_umami_converter.py,
lines 268-299): `bounced = round(visit_count * bounce_rate)` single-event
visits taken from the front, then, if any multi-page visits are planned and
events remain, the remaining events split by floor division with the
remainder distributed one each to the first visits.  The subsequent
metadata loop (lines 58-130) emits exactly one enhanced output record per
element of one visit, so the produced events are the flattening of this
partition; its session/visit UUIDs and timestamps are outside the
embedding. -/
def create_session_visits (α : Type) (events : List α) (visit_count : ℤ)
    (bounce_rate : ℚ) : List (List α) :=
  if events.isEmpty then []
  else
    let bounced := pyRound ((visit_count : ℚ) * bounce_rate)
    let multi := visit_count - bounced
    let bounceVisits := (events.take bounced.toNat).map (fun e => [e])
    let rest := events.drop bounced.toNat
    if 0 < multi ∧ !rest.isEmpty then
      bounceVisits ++
        splitLoop α (rest.length / multi.toNat) (rest.length % multi.toNat)
          0 multi.toNat rest
    else bounceVisits

/-! ## The assignment loop invariant -/

/-- The invariant of the greedy assignment loop, relative to the marginals
`m`, the dimension-name list `dN` and the target total. -/
structure AInv (m : Marginals) (dN : List String) (total : Int)
    (s : AState) : Prop where
  qNonneg : ∀ d v, 0 ≤ s.quotas d v
  qLeInit : ∀ d v, s.quotas d v ≤ alGet (mSet m d) v
  balance : ∀ (i : Nat) (hi : i < dN.length) (v : String),
    (countVal s.events i v : Int) + s.quotas (dN.get ⟨i, hi⟩) v =
      alGet (mSet m (dN.get ⟨i, hi⟩)) v
  conserve : (s.events.length : Int) + s.remaining = total
  reNonneg : 0 ≤ s.remaining
  keySum : ∀ (i : Nat) (hi : i < dN.length),
    ((mSet m (dN.get ⟨i, hi⟩)).map
      (fun r => s.quotas (dN.get ⟨i, hi⟩) r.1)).sum + (s.events.length : Int) =
      sumVals (mSet m (dN.get ⟨i, hi⟩))

/-- The cross-product combination list of `solve_exact_distribution`
(its local `combinations`, exact_ipf.py lines 27-30). -/
def combinations (m : Marginals) : List Combo :=
  enumCombos ((activeDims m).map Prod.snd)

/-- The active dimension names of `solve_exact_distribution`
(its local `dim_names`, exact_ipf.py line 25). -/
def dim_names (m : Marginals) : List String :=
  (activeDims m).map Prod.fst

/-- The spec's concrete feasible scenario:
`{pages: {"/a": 3, "/b": 2}, browsers: {"Chrome": 4, "Safari": 1}}`. -/
def exampleMarginals : Marginals :=
  [("pages", [("/a", 3), ("/b", 2)]),
   ("browsers", [("Chrome", 4), ("Safari", 1)])]

/-- The spec's concrete infeasible scenario:
`{pages: {"/a": 3}, browsers: {"Chrome": 1, "Safari": 1}}` (pages sums to
3, browsers to 2). -/
def infeasibleMarginals : Marginals :=
  [("pages", [("/a", 3)]), ("browsers", [("Chrome", 1), ("Safari", 1)])]

/-! ## IPF zero-cell claims -/

/-- The combination `c` has weight zero everywhere it occurs in `t`. -/
def zeroAt (t : WTable) (c : Combo) : Prop :=
  ∀ e ∈ t, e.1 = c → e.2 = 0

/-! ## IPF loop bound, early stop, and the missing non-convergence signal -/

/-- `k` uninstrumented IPF sweeps in iteration order. -/
def sweepN (dN : List String) (nm : NMarg) : Nat → WTable → WTable
  | 0, t => t
  | k + 1, t => sweepN dN nm k (ipfSweep dN nm t)

/-- The normalized marginals built by `run_ipf_for_weights` (lines 71-74). -/
def ipf_norm_marginals (m : Marginals) (total : Int) : NMarg :=
  (m.filter (fun p => !p.2.isEmpty)).map
    (fun p => (p.1, p.2.map (fun r => (r.1, (r.2 : ℚ) / (total : ℚ)))))

/-- The initial uniform table built by `run_ipf_for_weights` (lines 57-65). -/
def ipf_init_table (m : Marginals) : WTable :=
  initTable ((activeDims m).map Prod.snd)

/-! ## Session composer lemmas -/

/-- The visit sizes planned by the multi-page distribution loop:
`events_per_visit + (1 if i < remainder else 0)` for each iteration. -/
def splitSizes (epv rem : Nat) : Nat → Nat → List Nat
  | _, 0 => []
  | i, fuel + 1 =>
    (epv + if i < rem then 1 else 0) :: splitSizes epv rem (i + 1) fuel

/-- `bounced_visits = round(visit_count * bounce_rate)`
(full_pipeline.py, line 20). -/
def bounced_visits (V : ℤ) (b : ℚ) : ℤ :=
  pyRound ((V : ℚ) * b)

/-- `multi_page_visits = visit_count - bounced_visits` (line 21). -/
def multi_page_visits (V : ℤ) (b : ℚ) : ℤ :=
  V - bounced_visits V b

/-! ## Theorems -/

/-! ## Generic lemmas about the dict embedding -/

theorem find?_self {β : Type} (l : List (String × β))
    (hk : (l.map Prod.fst).Nodup) (r : String × β) (hr : r ∈ l) :
    l.find? (fun p => p.1 == r.1) = some r := by
  induction l with
  | nil => cases hr
  | cons a t ih =>
    rcases List.mem_cons.mp hr with h | h
    · subst h
      simp [List.find?]
    · have ha : a.1 ≠ r.1 := by
        intro he
        have : r.1 ∈ t.map Prod.fst := List.mem_map_of_mem Prod.fst h
        rw [← he] at this
        exact (List.nodup_cons.mp hk).1 this
      have hb : (a.1 == r.1) = false := by
        simpa using ha
      simp only [List.find?, hb]
      exact ih (List.nodup_cons.mp hk).2 h

theorem alGet_self (l : Dict) (hk : (l.map Prod.fst).Nodup)
    (r : String × Int) (hr : r ∈ l) : alGet l r.1 = r.2 := by
  unfold alGet
  rw [find?_self l hk r hr]

theorem mSet_self (m : Marginals) (hk : (m.map Prod.fst).Nodup)
    (p : String × Dict) (hp : p ∈ m) : mSet m p.1 = p.2 := by
  unfold mSet
  rw [find?_self m hk p hp]

theorem alGet_of_not_mem_keys (l : Dict) (k : String)
    (h : k ∉ l.map Prod.fst) : alGet l k = 0 := by
  unfold alGet
  have : l.find? (fun p => p.1 == k) = none := by
    rw [List.find?_eq_none]
    intro p hp
    simp only [beq_iff_eq]
    intro he
    exact h (he ▸ List.mem_map_of_mem Prod.fst hp)
  rw [this]

theorem mem_keys_of_alGet_ne_zero (l : Dict) (k : String)
    (h : alGet l k ≠ 0) : k ∈ l.map Prod.fst := by
  by_contra hmem
  exact h (alGet_of_not_mem_keys l k hmem)

theorem alGet_nonneg (l : Dict) (k : String)
    (h : ∀ r ∈ l, 0 ≤ r.2) : 0 ≤ alGet l k := by
  unfold alGet
  cases hf : l.find? (fun p => p.1 == k) with
  | none => exact le_refl 0
  | some p => exact h p (List.mem_of_find?_eq_some hf)

theorem alGet_cons (a : String × Int) (t : Dict) (k : String) :
    alGet (a :: t) k = if a.1 = k then a.2 else alGet t k := by
  by_cases h : a.1 = k
  · have hb : (a.1 == k) = true := by simpa using h
    simp [alGet, List.find?_cons_of_pos, hb, h]
  · have hb : (a.1 == k) = false := by simpa using h
    rw [if_neg h]
    unfold alGet
    rw [List.find?_cons_of_neg]
    simp [hb]

theorem alGet_map_ne (l : Dict) (k0 k : String) (w : Int) (hne : k0 ≠ k) :
    alGet (l.map (fun p => if p.1 == k0 then (k0, w) else p)) k = alGet l k := by
  induction l with
  | nil => rfl
  | cons a t ih =>
    by_cases ha : a.1 = k0
    · have h1 : (a.1 == k0) = true := by simpa using ha
      simp only [List.map_cons, h1, if_true, alGet_cons]
      rw [if_neg hne, if_neg (ha ▸ hne)]
      exact ih
    · have h1 : (a.1 == k0) = false := by simpa using ha
      simp only [List.map_cons, h1, Bool.false_eq_true, if_false, alGet_cons]
      rw [ih]

theorem alGet_map_self (l : Dict) (k0 : String) (w : Int)
    (h : l.any (fun p => p.1 == k0) = true) :
    alGet (l.map (fun p => if p.1 == k0 then (k0, w) else p)) k0 = w := by
  induction l with
  | nil => simp at h
  | cons a t ih =>
    by_cases ha : a.1 = k0
    · have h1 : (a.1 == k0) = true := by simpa using ha
      simp [List.map_cons, h1, alGet_cons, ha]
    · have h1 : (a.1 == k0) = false := by simpa using ha
      simp only [List.any_cons, h1, Bool.false_or] at h
      simp only [List.map_cons, h1, Bool.false_eq_true, if_false, alGet_cons]
      rw [if_neg ha]
      exact ih h

theorem alGet_append_ne (l : Dict) (k0 k : String) (w : Int) (hne : k0 ≠ k) :
    alGet (l ++ [(k0, w)]) k = alGet l k := by
  induction l with
  | nil => simp [alGet_cons, hne, alGet]
  | cons a t ih => simp only [List.cons_append, alGet_cons, ih]

theorem alGet_append_self (l : Dict) (k0 : String) (w : Int)
    (h : ∀ p ∈ l, p.1 ≠ k0) :
    alGet (l ++ [(k0, w)]) k0 = w := by
  induction l with
  | nil => simp [alGet_cons]
  | cons a t ih =>
    simp only [List.cons_append, alGet_cons]
    rw [if_neg (h a (List.mem_cons_self a t))]
    exact ih (fun p hp => h p (List.mem_cons_of_mem a hp))

theorem alGet_alSet (l : Dict) (k0 k : String) (w : Int) :
    alGet (alSet l k0 w) k = if k0 = k then w else alGet l k := by
  unfold alSet
  cases hany : l.any (fun p => p.1 == k0) with
  | true =>
    simp only [if_true]
    by_cases hk : k0 = k
    · subst hk
      rw [if_pos rfl]
      exact alGet_map_self l k0 w hany
    · rw [if_neg hk]
      exact alGet_map_ne l k0 k w hk
  | false =>
    simp only [Bool.false_eq_true, if_false]
    by_cases hk : k0 = k
    · subst hk
      rw [if_pos rfl]
      refine alGet_append_self l k0 w ?_
      intro p hp he
      have hall := List.any_eq_false.mp hany p hp
      simp [he] at hall
    · rw [if_neg hk]
      exact alGet_append_ne l k0 k w hk

theorem alGet_alAdd (l : Dict) (k0 k : String) (v : Int) :
    alGet (alAdd l k0 v) k = if k0 = k then alGet l k0 + v else alGet l k := by
  unfold alAdd
  exact alGet_alSet l k0 k (alGet l k0 + v)

theorem alGet_foldl_alAdd (rows : List (String × Int)) :
    ∀ (acc : Dict) (k : String),
      alGet (rows.foldl (fun a r => alAdd a r.1 r.2) acc) k =
        alGet acc k + ((rows.filter (fun r => r.1 == k)).map Prod.snd).sum := by
  induction rows with
  | nil => simp
  | cons r t ih =>
    intro acc k
    simp only [List.foldl_cons]
    rw [ih (alAdd acc r.1 r.2) k, alGet_alAdd]
    by_cases h : r.1 = k
    · subst h
      simp [List.filter_cons]
      ring
    · have hb : (r.1 == k) = false := by simpa using h
      simp [List.filter_cons, hb, h]

theorem alGet_accumRows (rows : List (String × Int)) (k : String) :
    alGet (accumRows rows) k =
      ((rows.filter (fun r => r.1 == k)).map Prod.snd).sum := by
  unfold accumRows
  rw [alGet_foldl_alAdd]
  simp [alGet]

/-! ## Lemmas about the greedy assignment primitives -/

theorem foldl_min_le_init {β : Type} (f : β → Int) (l : List β) :
    ∀ acc : Int, l.foldl (fun a p => min a (f p)) acc ≤ acc := by
  induction l with
  | nil => intro acc; exact le_refl acc
  | cons p t ih =>
    intro acc
    exact le_trans (ih (min acc (f p))) (min_le_left acc (f p))

theorem foldl_min_le_elem {β : Type} (f : β → Int) (l : List β) :
    ∀ (acc : Int) (p : β), p ∈ l → l.foldl (fun a x => min a (f x)) acc ≤ f p := by
  induction l with
  | nil => intro _ _ h; cases h
  | cons x t ih =>
    intro acc p hp
    rcases List.mem_cons.mp hp with h | h
    · subst h
      exact le_trans (foldl_min_le_init f t (min acc (f p))) (min_le_right acc (f p))
    · exact ih (min acc (f x)) p h

theorem foldl_min_pos {β : Type} (f : β → Int) (l : List β) :
    ∀ acc : Int, 0 < acc → (∀ p ∈ l, 0 < f p) →
      0 < l.foldl (fun a x => min a (f x)) acc := by
  induction l with
  | nil => intro acc h _; exact h
  | cons x t ih =>
    intro acc hacc hall
    refine ih (min acc (f x)) ?_ ?_
    · exact lt_min hacc (hall x (List.mem_cons_self x t))
    · intro p hp
      exact hall p (List.mem_cons_of_mem x hp)

theorem foldl_min_attained {β : Type} (f : β → Int) (l : List β) :
    ∀ acc : Int, l.foldl (fun a x => min a (f x)) acc = acc ∨
      ∃ p ∈ l, l.foldl (fun a x => min a (f x)) acc = f p := by
  induction l with
  | nil => intro acc; exact Or.inl rfl
  | cons x t ih =>
    intro acc
    rcases ih (min acc (f x)) with h | ⟨p, hp, h⟩
    · rcases le_total acc (f x) with hle | hle
      · left
        rw [List.foldl_cons, h, min_eq_left hle]
      · right
        exact ⟨x, List.mem_cons_self x t, by rw [List.foldl_cons, h, min_eq_right hle]⟩
    · right
      exact ⟨p, List.mem_cons_of_mem x hp, h⟩

theorem zip_map_fst_sublist {β γ : Type} (l1 : List β) :
    ∀ l2 : List γ, ((l1.zip l2).map Prod.fst).Sublist l1 := by
  induction l1 with
  | nil => intro l2; simp
  | cons a t ih =>
    intro l2
    cases l2 with
    | nil => simp
    | cons b t2 =>
      simpa using List.Sublist.cons₂ a (ih t2)

theorem zip_fst_nodup {β γ : Type} (l1 : List β) (l2 : List γ)
    (h : l1.Nodup) : ((l1.zip l2).map Prod.fst).Nodup :=
  (zip_map_fst_sublist l1 l2).nodup h

theorem mem_zip_get (l1 : List String) :
    ∀ (l2 : List String) (i : Nat) (h1 : i < l1.length) (h2 : i < l2.length),
      (l1.get ⟨i, h1⟩, l2.get ⟨i, h2⟩) ∈ l1.zip l2 := by
  induction l1 with
  | nil => intro _ i h1 _; cases h1
  | cons a t ih =>
    intro l2 i h1 h2
    cases l2 with
    | nil => cases h2
    | cons b t2 =>
      cases i with
      | zero => exact List.mem_cons_self _ _
      | succ j =>
        exact List.mem_cons_of_mem _
          (ih t2 j (Nat.lt_of_succ_lt_succ h1) (Nat.lt_of_succ_lt_succ h2))

theorem mem_zip_elim (l1 : List String) :
    ∀ (l2 : List String) (p : String × String), p ∈ l1.zip l2 →
      ∃ (i : Nat) (h1 : i < l1.length) (h2 : i < l2.length),
        p.1 = l1.get ⟨i, h1⟩ ∧ p.2 = l2.get ⟨i, h2⟩ := by
  induction l1 with
  | nil => intro _ p h; cases h
  | cons a t ih =>
    intro l2 p hp
    cases l2 with
    | nil => cases hp
    | cons b t2 =>
      rcases List.mem_cons.mp hp with h | h
      · exact ⟨0, Nat.succ_pos _, Nat.succ_pos _, by simp [h], by simp [h]⟩
      · rcases ih t2 p h with ⟨i, h1, h2, he1, he2⟩
        exact ⟨i + 1, Nat.succ_lt_succ h1, Nat.succ_lt_succ h2, by simpa using he1,
          by simpa using he2⟩

theorem decQuotas_get (dN : List String) (c : Combo) (n : Int)
    (hfst : ((dN.zip c).map Prod.fst).Nodup) (q : Quotas) (d v : String) :
    decQuotas dN q c n d v =
      q d v - (if (d, v) ∈ dN.zip c then n else 0) := by
  unfold decQuotas
  generalize hl : dN.zip c = pairs at hfst ⊢
  clear hl
  induction pairs generalizing q with
  | nil => simp
  | cons p t ih =>
    rw [List.map_cons] at hfst
    rcases List.nodup_cons.mp hfst with ⟨hnotin, hnd⟩
    simp only [List.foldl_cons]
    rw [ih _ hnd]
    by_cases hdv : (d, v) = p
    · have hd : d = p.1 := by rw [← hdv]
      have hv : v = p.2 := by rw [← hdv]
      have hnotmem : (d, v) ∉ t := by
        intro hmem
        have : p.1 ∈ t.map Prod.fst := by
          rw [← hd]
          exact List.mem_map_of_mem Prod.fst hmem
        exact hnotin this
      rw [if_pos ⟨hd, hv⟩, if_neg hnotmem, if_pos (List.mem_cons.mpr (Or.inl hdv))]
      ring
    · have hcond : ¬(d = p.1 ∧ v = p.2) := by
        intro ⟨hd, hv⟩
        exact hdv (by rw [hd, hv])
      rw [if_neg hcond]
      by_cases hmem : (d, v) ∈ t
      · rw [if_pos hmem, if_pos (List.mem_cons.mpr (Or.inr hmem))]
      · rw [if_neg hmem, if_neg (by
          intro hm
          rcases List.mem_cons.mp hm with h | h
          · exact hdv h
          · exact hmem h)]

theorem countVal_append_replicate (es : List Combo) (c : Combo) (k : Nat)
    (i : Nat) (v : String) :
    countVal (es ++ List.replicate k c) i v =
      countVal es i v + (if c.getD i "" = v then k else 0) := by
  unfold countVal
  rw [List.filter_append, List.length_append]
  congr 1
  by_cases h : c.getD i "" = v
  · rw [if_pos h]
    induction k with
    | zero => rfl
    | succ j ihj =>
      rw [List.replicate_succ, List.filter_cons, if_pos (by simpa using h),
        List.length_cons, ihj]
  · rw [if_neg h]
    induction k with
    | zero => rfl
    | succ j ihj =>
      rw [List.replicate_succ, List.filter_cons, if_neg (by simpa using h), ihj]

theorem list_sum_sub {β : Type} (l : List β) (f g : β → Int) :
    (l.map (fun a => f a - g a)).sum = (l.map f).sum - (l.map g).sum := by
  induction l with
  | nil => simp
  | cons a t ih =>
    simp only [List.map_cons, List.sum_cons, ih]
    ring

theorem sum_ite_key (rows : Dict) (w : String) (n : Int)
    (hnd : (rows.map Prod.fst).Nodup) :
    (rows.map (fun r => if r.1 = w then n else 0)).sum =
      if w ∈ rows.map Prod.fst then n else 0 := by
  induction rows with
  | nil => simp
  | cons r t ih =>
    rw [List.map_cons] at hnd
    rcases List.nodup_cons.mp hnd with ⟨hnotin, hnd2⟩
    simp only [List.map_cons, List.sum_cons, List.mem_cons]
    by_cases h : r.1 = w
    · rw [if_pos h, if_pos (Or.inl h.symm), ih hnd2,
        if_neg (by rw [← h]; exact hnotin), add_zero]
    · rw [if_neg h, ih hnd2, zero_add]
      by_cases hm : w ∈ t.map Prod.fst
      · rw [if_pos hm, if_pos (Or.inr hm)]
      · rw [if_neg hm, if_neg (by
          intro hor
          rcases hor with hh | hh
          · exact h hh.symm
          · exact hm hh)]

theorem sum_pos_exists (l : List Int) (hnn : ∀ x ∈ l, 0 ≤ x)
    (hpos : 0 < l.sum) : ∃ x ∈ l, 0 < x := by
  induction l with
  | nil => simp at hpos
  | cons a t ih =>
    by_cases ha : 0 < a
    · exact ⟨a, List.mem_cons_self a t, ha⟩
    · have ha0 : a = 0 :=
        le_antisymm (not_lt.mp ha) (hnn a (List.mem_cons_self a t))
      rw [List.sum_cons, ha0, zero_add] at hpos
      rcases ih (fun x hx => hnn x (List.mem_cons_of_mem a hx)) hpos with ⟨x, hx, hxp⟩
      exact ⟨x, List.mem_cons_of_mem a hx, hxp⟩

theorem sum_zero_all_zero (l : List Int) (hnn : ∀ x ∈ l, 0 ≤ x)
    (hz : l.sum = 0) : ∀ x ∈ l, x = 0 := by
  intro x hx
  by_contra hne
  have hxpos : 0 < x := lt_of_le_of_ne (hnn x hx) (Ne.symm hne)
  have : 0 < l.sum := by
    calc 0 < x := hxpos
    _ ≤ l.sum := List.single_le_sum hnn x hx
  omega

theorem inv_init (m : Marginals) (dN : List String) (total : Int)
    (hknd : ∀ d ∈ dN, ((mSet m d).map Prod.fst).Nodup)
    (hnn : ∀ d v, 0 ≤ alGet (mSet m d) v)
    (htot : 0 ≤ total) :
    AInv m dN total ⟨[], initQuotas m, total⟩ := by
  refine ⟨?_, ?_, ?_, ?_, ?_, ?_⟩
  · intro d v
    exact hnn d v
  · intro d v
    exact le_refl _
  · intro i hi v
    simp [countVal, initQuotas]
  · simp
  · exact htot
  · intro i hi
    simp only [List.length_nil, Nat.cast_zero, add_zero, initQuotas]
    unfold sumVals
    congr 1
    refine List.map_congr_left ?_
    intro r hr
    exact alGet_self _ (hknd _ (List.get_mem dN _ hi)) r hr

theorem assignStep_eq (dN : List String) (s : AState) (c : Combo) :
    assignStep dN s c =
      if s.remaining ≤ 0 then s
      else if 0 < maxAssignable dN s.quotas c s.remaining then
        { events := s.events ++
            List.replicate (maxAssignable dN s.quotas c s.remaining).toNat c
          quotas := decQuotas dN s.quotas c
            (maxAssignable dN s.quotas c s.remaining)
          remaining := s.remaining - maxAssignable dN s.quotas c s.remaining }
      else s := rfl

theorem assignStep_inv (m : Marginals) (dN : List String) (total : Int)
    (hdN : dN.Nodup)
    (hknd : ∀ d ∈ dN, ((mSet m d).map Prod.fst).Nodup)
    (c : Combo) (hc : c.length = dN.length)
    (s : AState) (hs : AInv m dN total s) :
    AInv m dN total (assignStep dN s c) := by
  rw [assignStep_eq]
  by_cases hre : s.remaining ≤ 0
  · rw [if_pos hre]
    exact hs
  · rw [if_neg hre]
    set n := maxAssignable dN s.quotas c s.remaining with hn_def
    by_cases hn : 0 < n
    · rw [if_pos hn]
      have hnle : n ≤ s.remaining := foldl_min_le_init _ _ _
      have hnleq : ∀ p ∈ dN.zip c, n ≤ s.quotas p.1 p.2 := by
        intro p hp
        exact foldl_min_le_elem (fun p => s.quotas p.1 p.2) (dN.zip c) _ p hp
      have hq2 : ∀ d v, decQuotas dN s.quotas c n d v =
          s.quotas d v - (if (d, v) ∈ dN.zip c then n else 0) :=
        decQuotas_get dN c n (zip_fst_nodup dN c hdN) s.quotas
      have hcast : ((n.toNat : Int)) = n := Int.toNat_of_nonneg (le_of_lt hn)
      refine ⟨?_, ?_, ?_, ?_, ?_, ?_⟩
      · intro d v
        show 0 ≤ decQuotas dN s.quotas c n d v
        rw [hq2]
        by_cases hm : (d, v) ∈ dN.zip c
        · rw [if_pos hm, sub_nonneg]
          exact hnleq (d, v) hm
        · rw [if_neg hm, sub_zero]
          exact hs.qNonneg d v
      · intro d v
        show decQuotas dN s.quotas c n d v ≤ alGet (mSet m d) v
        rw [hq2]
        calc s.quotas d v - (if (d, v) ∈ dN.zip c then n else 0)
            ≤ s.quotas d v := by
              by_cases hm : (d, v) ∈ dN.zip c
              · rw [if_pos hm]
                linarith
              · rw [if_neg hm, sub_zero]
          _ ≤ alGet (mSet m d) v := hs.qLeInit d v
      · intro i hi v
        have hci : i < c.length := by
          rw [hc]
          exact hi
        have hgetD : c.getD i "" = c.get ⟨i, hci⟩ := by
          rw [List.getD_eq_getElem c "" hci]
          rfl
        show (countVal (s.events ++ List.replicate n.toNat c) i v : Int) +
            decQuotas dN s.quotas c n (dN.get ⟨i, hi⟩) v =
            alGet (mSet m (dN.get ⟨i, hi⟩)) v
        rw [countVal_append_replicate, hq2]
        by_cases hvw : v = c.get ⟨i, hci⟩
        · have hmem : (dN.get ⟨i, hi⟩, v) ∈ dN.zip c := by
            rw [hvw]
            exact mem_zip_get dN c i hi hci
          rw [if_pos (by rw [hgetD, hvw]), if_pos hmem]
          have hb := hs.balance i hi v
          push_cast
          rw [hcast]
          linarith
        · have hnmem : (dN.get ⟨i, hi⟩, v) ∉ dN.zip c := by
            intro hmem
            rcases mem_zip_elim dN c (dN.get ⟨i, hi⟩, v) hmem with
              ⟨j, hj1, hj2, hd, hv⟩
            have hij : (⟨i, hi⟩ : Fin dN.length) = ⟨j, hj1⟩ :=
              hdN.get_inj_iff.mp hd
            have hji : i = j := by simpa using hij
            subst hji
            exact absurd (by simpa using hv) (by simpa using hvw)
          rw [if_neg (by rw [hgetD]; exact fun he => hvw he.symm),
            if_neg hnmem, add_zero, sub_zero]
          exact hs.balance i hi v
      · show ((s.events ++ List.replicate n.toNat c).length : Int) +
            (s.remaining - n) = total
        rw [List.length_append, List.length_replicate]
        have hb := hs.conserve
        push_cast
        rw [hcast]
        linarith
      · show 0 ≤ s.remaining - n
        linarith
      · intro i hi
        have hci : i < c.length := by
          rw [hc]
          exact hi
        have hw : c.get ⟨i, hci⟩ ∈ (mSet m (dN.get ⟨i, hi⟩)).map Prod.fst := by
          apply mem_keys_of_alGet_ne_zero
          have h1 : n ≤ s.quotas (dN.get ⟨i, hi⟩) (c.get ⟨i, hci⟩) :=
            hnleq _ (mem_zip_get dN c i hi hci)
          have h2 := hs.qLeInit (dN.get ⟨i, hi⟩) (c.get ⟨i, hci⟩)
          intro hz
          rw [hz] at h2
          linarith
        show ((mSet m (dN.get ⟨i, hi⟩)).map
            (fun r => decQuotas dN s.quotas c n (dN.get ⟨i, hi⟩) r.1)).sum +
            ((s.events ++ List.replicate n.toNat c).length : Int) =
            sumVals (mSet m (dN.get ⟨i, hi⟩))
        have hmap : ((mSet m (dN.get ⟨i, hi⟩)).map
            (fun r => decQuotas dN s.quotas c n (dN.get ⟨i, hi⟩) r.1)) =
            ((mSet m (dN.get ⟨i, hi⟩)).map
              (fun r => s.quotas (dN.get ⟨i, hi⟩) r.1 -
                (if r.1 = c.get ⟨i, hci⟩ then n else 0))) := by
          refine List.map_congr_left ?_
          intro r hr
          rw [hq2]
          congr 1
          by_cases hrw : r.1 = c.get ⟨i, hci⟩
          · rw [if_pos hrw, if_pos (by rw [hrw]; exact mem_zip_get dN c i hi hci)]
          · rw [if_neg hrw, if_neg (by
              intro hmem
              rcases mem_zip_elim dN c (dN.get ⟨i, hi⟩, r.1) hmem with
                ⟨j, hj1, hj2, hd, hv⟩
              have hij : (⟨i, hi⟩ : Fin dN.length) = ⟨j, hj1⟩ :=
                hdN.get_inj_iff.mp hd
              have hji : i = j := by simpa using hij
              subst hji
              exact absurd (by simpa using hv) (by simpa using hrw))]
        rw [hmap, list_sum_sub, sum_ite_key _ _ _
          (hknd _ (List.get_mem dN _ hi)), if_pos hw,
          List.length_append, List.length_replicate]
        have hb := hs.keySum i hi
        push_cast
        rw [hcast]
        linarith
    · rw [if_neg hn]
      exact hs

theorem foldl_inv (m : Marginals) (dN : List String) (total : Int)
    (hdN : dN.Nodup)
    (hknd : ∀ d ∈ dN, ((mSet m d).map Prod.fst).Nodup) :
    ∀ (combos : List Combo) (s : AState), AInv m dN total s →
      (∀ c ∈ combos, c.length = dN.length) →
      AInv m dN total (combos.foldl (assignStep dN) s) := by
  intro combos
  induction combos with
  | nil => intro s hs _; exact hs
  | cons c t ih =>
    intro s hs hlen
    rw [List.foldl_cons]
    exact ih (assignStep dN s c)
      (assignStep_inv m dN total hdN hknd c (hlen c (List.mem_cons_self c t)) s hs)
      (fun x hx => hlen x (List.mem_cons_of_mem c hx))

theorem assignStep_quotas_le (dN : List String) (hdN : dN.Nodup)
    (s : AState) (c : Combo) (d v : String) :
    (assignStep dN s c).quotas d v ≤ s.quotas d v := by
  rw [assignStep_eq]
  by_cases hre : s.remaining ≤ 0
  · rw [if_pos hre]
  · rw [if_neg hre]
    by_cases hn : 0 < maxAssignable dN s.quotas c s.remaining
    · rw [if_pos hn]
      show decQuotas dN s.quotas c _ d v ≤ s.quotas d v
      rw [decQuotas_get dN c _ (zip_fst_nodup dN c hdN)]
      by_cases hm : (d, v) ∈ dN.zip c
      · rw [if_pos hm]
        linarith
      · rw [if_neg hm, sub_zero]
    · rw [if_neg hn]

theorem assignStep_remaining_le (dN : List String) (s : AState) (c : Combo) :
    (assignStep dN s c).remaining ≤ s.remaining := by
  rw [assignStep_eq]
  by_cases hre : s.remaining ≤ 0
  · rw [if_pos hre]
  · rw [if_neg hre]
    by_cases hn : 0 < maxAssignable dN s.quotas c s.remaining
    · rw [if_pos hn]
      show s.remaining - _ ≤ s.remaining
      linarith
    · rw [if_neg hn]

theorem foldl_quotas_le (dN : List String) (hdN : dN.Nodup) :
    ∀ (combos : List Combo) (s : AState) (d v : String),
      (combos.foldl (assignStep dN) s).quotas d v ≤ s.quotas d v := by
  intro combos
  induction combos with
  | nil => intro s d v; exact le_refl _
  | cons c t ih =>
    intro s d v
    rw [List.foldl_cons]
    exact le_trans (ih (assignStep dN s c) d v)
      (assignStep_quotas_le dN hdN s c d v)

theorem foldl_remaining_le (dN : List String) :
    ∀ (combos : List Combo) (s : AState),
      (combos.foldl (assignStep dN) s).remaining ≤ s.remaining := by
  intro combos
  induction combos with
  | nil => intro s; exact le_refl _
  | cons c t ih =>
    intro s
    rw [List.foldl_cons]
    exact le_trans (ih (assignStep dN s c)) (assignStep_remaining_le dN s c)

/-- Full consumption: when every dimension's marginal sums to the common
total (with non-negative counts and duplicate-free keys) and the
combination list contains the entire cross-product, the greedy pass ends
with `remaining_events = 0`, regardless of the order of the list. -/
theorem assign_remaining_zero
    (m : Marginals) (dN : List String) (total : Int) (combos : List Combo)
    (hdN : dN.Nodup)
    (hknd : ∀ d ∈ dN, ((mSet m d).map Prod.fst).Nodup)
    (hnn : ∀ d v, 0 ≤ alGet (mSet m d) v)
    (htot : 0 ≤ total)
    (hsum : ∀ (i : Nat) (hi : i < dN.length),
      sumVals (mSet m (dN.get ⟨i, hi⟩)) = total)
    (hlen : ∀ c ∈ combos, c.length = dN.length)
    (hcomplete : ∀ c : Combo, c.length = dN.length →
      (∀ (i : Nat) (hi : i < dN.length) (hci : i < c.length),
        c.get ⟨i, hci⟩ ∈ (mSet m (dN.get ⟨i, hi⟩)).map Prod.fst) →
      c ∈ combos) :
    (runAssign dN m total combos).remaining = 0 := by
  have hInv : AInv m dN total (runAssign dN m total combos) :=
    foldl_inv m dN total hdN hknd combos _
      (inv_init m dN total hknd hnn htot) hlen
  rcases eq_or_lt_of_le hInv.reNonneg with hz | hpos
  · exact hz.symm
  · exfalso
    set fs := runAssign dN m total combos with hfs_def
    have hq0 : ∀ i : Fin dN.length, ∃ v,
        v ∈ (mSet m (dN.get i)).map Prod.fst ∧ 0 < fs.quotas (dN.get i) v := by
      intro i
      have hks := hInv.keySum i.1 i.2
      have hcons := hInv.conserve
      have hsumq : ((mSet m (dN.get ⟨i.1, i.2⟩)).map
          (fun r => fs.quotas (dN.get ⟨i.1, i.2⟩) r.1)).sum = fs.remaining := by
        rw [hsum i.1 i.2] at hks
        linarith
      have hnnl : ∀ x ∈ (mSet m (dN.get ⟨i.1, i.2⟩)).map
          (fun r => fs.quotas (dN.get ⟨i.1, i.2⟩) r.1), 0 ≤ x := by
        intro x hx
        rcases List.mem_map.mp hx with ⟨r, _, hrx⟩
        rw [← hrx]
        exact hInv.qNonneg _ _
      rcases sum_pos_exists _ hnnl (by rw [hsumq]; exact hpos) with ⟨x, hx, hxp⟩
      rcases List.mem_map.mp hx with ⟨r, hr, hrx⟩
      exact ⟨r.1, List.mem_map_of_mem Prod.fst hr, by rw [hrx]; exact hxp⟩
    choose f hf1 hf2 using hq0
    set cstar : Combo := (List.finRange dN.length).map f with hcstar_def
    have hclen : cstar.length = dN.length := by
      simp [hcstar_def]
    have hcget : ∀ (i : Nat) (hi : i < dN.length) (hci : i < cstar.length),
        cstar.get ⟨i, hci⟩ = f ⟨i, hi⟩ := by
      intro i hi hci
      simp [hcstar_def, List.get_finRange]
    have hcmem : cstar ∈ combos := by
      refine hcomplete cstar hclen ?_
      intro i hi hci
      rw [hcget i hi hci]
      exact hf1 ⟨i, hi⟩
    rcases List.append_of_mem hcmem with ⟨l1, l2, hsplit⟩
    have hdecomp : fs = l2.foldl (assignStep dN)
        (assignStep dN (l1.foldl (assignStep dN) ⟨[], initQuotas m, total⟩) cstar) := by
      rw [hfs_def]
      unfold runAssign
      rw [hsplit, List.foldl_append, List.foldl_cons]
    set s1 : AState := l1.foldl (assignStep dN) ⟨[], initQuotas m, total⟩ with hs1_def
    set s2 : AState := assignStep dN s1 cstar with hs2_def
    have hfs_le_s2_q : ∀ d v, fs.quotas d v ≤ s2.quotas d v := by
      intro d v
      rw [hdecomp]
      exact foldl_quotas_le dN hdN l2 s2 d v
    have hfs_le_s2_re : fs.remaining ≤ s2.remaining := by
      rw [hdecomp]
      exact foldl_remaining_le dN l2 s2
    have hs2_le_s1_q : ∀ d v, s2.quotas d v ≤ s1.quotas d v := by
      intro d v
      exact assignStep_quotas_le dN hdN s1 cstar d v
    have hs1q_pos : ∀ i : Fin dN.length, 0 < s1.quotas (dN.get i) (f i) := by
      intro i
      calc (0 : Int) < fs.quotas (dN.get i) (f i) := hf2 i
        _ ≤ s2.quotas (dN.get i) (f i) := hfs_le_s2_q _ _
        _ ≤ s1.quotas (dN.get i) (f i) := hs2_le_s1_q _ _
    have hs1re_pos : 0 < s1.remaining := by
      calc (0 : Int) < fs.remaining := hpos
        _ ≤ s2.remaining := hfs_le_s2_re
        _ ≤ s1.remaining := assignStep_remaining_le dN s1 cstar
    have hzip_pos : ∀ p ∈ dN.zip cstar, 0 < s1.quotas p.1 p.2 := by
      intro p hp
      rcases mem_zip_elim dN cstar p hp with ⟨j, hj1, hj2, hd, hv⟩
      rw [hd, hv, hcget j hj1 hj2]
      exact hs1q_pos ⟨j, hj1⟩
    have hnpos : 0 < maxAssignable dN s1.quotas cstar s1.remaining := by
      unfold maxAssignable
      exact foldl_min_pos (fun p => s1.quotas p.1 p.2) (dN.zip cstar)
        s1.remaining hs1re_pos hzip_pos
    have hs2_eq : s2 =
        { events := s1.events ++
            List.replicate (maxAssignable dN s1.quotas cstar s1.remaining).toNat cstar
          quotas := decQuotas dN s1.quotas cstar
            (maxAssignable dN s1.quotas cstar s1.remaining)
          remaining := s1.remaining -
            maxAssignable dN s1.quotas cstar s1.remaining } := by
      rw [hs2_def, assignStep_eq, if_neg (by linarith), if_pos hnpos]
    rcases foldl_min_attained (fun p => s1.quotas p.1 p.2) (dN.zip cstar)
        s1.remaining with hatt | ⟨p, hp, hatt⟩
    · have : s2.remaining = 0 := by
        rw [hs2_eq]
        show s1.remaining - maxAssignable dN s1.quotas cstar s1.remaining = 0
        unfold maxAssignable
        rw [hatt]
        ring
      linarith [hfs_le_s2_re, hpos]
    · rcases mem_zip_elim dN cstar p hp with ⟨j, hj1, hj2, hd, hv⟩
      have hqz : s2.quotas p.1 p.2 = 0 := by
        rw [hs2_eq]
        show decQuotas dN s1.quotas cstar _ p.1 p.2 = 0
        rw [decQuotas_get dN cstar _ (zip_fst_nodup dN cstar hdN),
          if_pos (by rw [← Prod.mk.eta (p := p)] at hp; exact hp)]
        unfold maxAssignable
        rw [hatt]
        ring
      have hfsp : 0 < fs.quotas p.1 p.2 := by
        rw [hd, hv, hcget j hj1 hj2]
        exact hf2 ⟨j, hj1⟩
      have := hfs_le_s2_q p.1 p.2
      linarith

/-- Exact reconstruction: under the hypotheses of `assign_remaining_zero`
the greedy pass consumes exactly `total` events, drives every quota of
every active dimension to zero, and its per-dimension recount equals the
original marginal pointwise. -/
theorem assign_exact_counts
    (m : Marginals) (dN : List String) (total : Int) (combos : List Combo)
    (hdN : dN.Nodup)
    (hknd : ∀ d ∈ dN, ((mSet m d).map Prod.fst).Nodup)
    (hnn : ∀ d v, 0 ≤ alGet (mSet m d) v)
    (htot : 0 ≤ total)
    (hsum : ∀ (i : Nat) (hi : i < dN.length),
      sumVals (mSet m (dN.get ⟨i, hi⟩)) = total)
    (hlen : ∀ c ∈ combos, c.length = dN.length)
    (hcomplete : ∀ c : Combo, c.length = dN.length →
      (∀ (i : Nat) (hi : i < dN.length) (hci : i < c.length),
        c.get ⟨i, hci⟩ ∈ (mSet m (dN.get ⟨i, hi⟩)).map Prod.fst) →
      c ∈ combos) :
    (runAssign dN m total combos).remaining = 0 ∧
    ((runAssign dN m total combos).events.length : Int) = total ∧
    (∀ (i : Nat) (hi : i < dN.length) (v : String),
      (runAssign dN m total combos).quotas (dN.get ⟨i, hi⟩) v = 0) ∧
    (∀ (i : Nat) (hi : i < dN.length) (v : String),
      (countVal (runAssign dN m total combos).events i v : Int) =
        alGet (mSet m (dN.get ⟨i, hi⟩)) v) := by
  have hz := assign_remaining_zero m dN total combos hdN hknd hnn htot hsum
    hlen hcomplete
  have hInv : AInv m dN total (runAssign dN m total combos) :=
    foldl_inv m dN total hdN hknd combos _
      (inv_init m dN total hknd hnn htot) hlen
  set fs := runAssign dN m total combos with hfs_def
  have hlen_total : (fs.events.length : Int) = total := by
    have := hInv.conserve
    rw [hz] at this
    linarith
  have hq0 : ∀ (i : Nat) (hi : i < dN.length) (v : String),
      fs.quotas (dN.get ⟨i, hi⟩) v = 0 := by
    intro i hi v
    have hks := hInv.keySum i hi
    rw [hsum i hi] at hks
    have hsz : ((mSet m (dN.get ⟨i, hi⟩)).map
        (fun r => fs.quotas (dN.get ⟨i, hi⟩) r.1)).sum = 0 := by
      linarith
    by_cases hv : v ∈ (mSet m (dN.get ⟨i, hi⟩)).map Prod.fst
    · rcases List.mem_map.mp hv with ⟨r, hr, hrv⟩
      have helem : fs.quotas (dN.get ⟨i, hi⟩) r.1 ∈
          (mSet m (dN.get ⟨i, hi⟩)).map
            (fun r => fs.quotas (dN.get ⟨i, hi⟩) r.1) :=
        List.mem_map_of_mem _ hr
      have := sum_zero_all_zero _ (by
        intro x hx
        rcases List.mem_map.mp hx with ⟨r2, _, hr2⟩
        rw [← hr2]
        exact hInv.qNonneg _ _) hsz _ helem
      rw [← hrv]
      exact this
    · have h1 := hInv.qLeInit (dN.get ⟨i, hi⟩) v
      rw [alGet_of_not_mem_keys _ _ hv] at h1
      exact le_antisymm h1 (hInv.qNonneg _ _)
  refine ⟨hz, hlen_total, hq0, ?_⟩
  intro i hi v
  have hb := hInv.balance i hi v
  rw [hq0 i hi v] at hb
  linarith

/-! ## Bridging the sorted pass and the enumerated cross-product -/

theorem sortCombosByWeight_perm (combos : List Combo) (wt : WTable) :
    List.Perm (sortCombosByWeight combos wt) combos := by
  unfold sortCombosByWeight
  have h1 := List.mergeSort_perm (combos.map (fun c => (c, wGet wt c)))
    (fun a b => decide (b.2 ≤ a.2))
  have h2 := h1.map Prod.fst
  rw [List.map_map] at h2
  have h3 : List.map (Prod.fst ∘ fun c => (c, wGet wt c)) combos = combos := by
    rw [show (Prod.fst ∘ fun c => (c, wGet wt c)) = id from rfl, List.map_id]
  rw [h3] at h2
  exact h2

theorem mem_sortCombosByWeight (combos : List Combo) (wt : WTable)
    (c : Combo) : c ∈ sortCombosByWeight combos wt ↔ c ∈ combos :=
  (sortCombosByWeight_perm combos wt).mem_iff

theorem mem_pySorted (l : List String) (v : String) :
    v ∈ pySorted l ↔ v ∈ l :=
  (List.mergeSort_perm l _).mem_iff

theorem enumCombos_length (domains : List (List String)) :
    ∀ c ∈ enumCombos domains, c.length = domains.length := by
  induction domains with
  | nil =>
    intro c hc
    simp only [enumCombos, List.foldr_nil, List.mem_singleton] at hc
    simp [hc]
  | cons dom rest ih =>
    intro c hc
    simp only [enumCombos, List.foldr_cons] at hc
    rcases List.mem_flatMap.mp hc with ⟨v, hv, hc2⟩
    rcases List.mem_map.mp hc2 with ⟨c2, hc2m, hc2e⟩
    rw [← hc2e]
    rw [List.length_cons, List.length_cons, ih c2 hc2m]

theorem enumCombos_complete (domains : List (List String)) :
    ∀ c : Combo, c.length = domains.length →
      (∀ (i : Nat) (h1 : i < c.length) (h2 : i < domains.length),
        c.get ⟨i, h1⟩ ∈ domains.get ⟨i, h2⟩) →
      c ∈ enumCombos domains := by
  induction domains with
  | nil =>
    intro c hlen _
    rw [List.length_nil] at hlen
    rw [List.length_eq_zero.mp hlen]
    simp [enumCombos]
  | cons dom rest ih =>
    intro c hlen hmem
    cases c with
    | nil => simp at hlen
    | cons v ct =>
      simp only [enumCombos, List.foldr_cons]
      refine List.mem_flatMap.mpr ⟨v, ?_, ?_⟩
      · have := hmem 0 (Nat.succ_pos _) (Nat.succ_pos _)
        simpa using this
      · refine List.mem_map.mpr ⟨ct, ?_, rfl⟩
        refine ih ct (by simpa using hlen) ?_
        intro i h1 h2
        have := hmem (i + 1) (Nat.succ_lt_succ h1) (Nat.succ_lt_succ h2)
        simpa using this

theorem mSet_cases (m : Marginals) (d : String) :
    mSet m d = [] ∨ ∃ p ∈ m, p.1 = d ∧ mSet m d = p.2 := by
  unfold mSet
  cases hf : m.find? (fun p => p.1 == d) with
  | none => exact Or.inl rfl
  | some p =>
    refine Or.inr ⟨p, List.mem_of_find?_eq_some hf, ?_, rfl⟩
    have := List.find?_some hf
    simpa using this

theorem alGet_mSet_nonneg (m : Marginals)
    (hrows : ∀ p ∈ m, ∀ r ∈ p.2, 0 ≤ r.2) :
    ∀ d v, 0 ≤ alGet (mSet m d) v := by
  intro d v
  rcases mSet_cases m d with h | ⟨p, hp, _, h⟩
  · rw [h]
    exact le_refl 0
  · rw [h]
    exact alGet_nonneg _ _ (hrows p hp)

theorem dim_names_nodup (m : Marginals) (hm : (m.map Prod.fst).Nodup) :
    (dim_names m).Nodup := by
  have he : dim_names m = (m.filter (fun p => !p.2.isEmpty)).map Prod.fst := by
    unfold dim_names activeDims
    rw [List.map_map]
    exact List.map_congr_left (fun p _ => rfl)
  rw [he]
  exact ((List.filter_sublist m).map Prod.fst).nodup hm

theorem dim_names_length (m : Marginals) :
    (dim_names m).length = (m.filter (fun p => !p.2.isEmpty)).length := by
  unfold dim_names activeDims
  rw [List.length_map, List.length_map]

theorem activeDims_get_spec (m : Marginals) (hm : (m.map Prod.fst).Nodup)
    (i : Nat) (hi : i < (dim_names m).length) :
    ∃ hiF : i < (m.filter (fun p => !p.2.isEmpty)).length,
      letI p := (m.filter (fun p => !p.2.isEmpty)).get ⟨i, hiF⟩
      (dim_names m).get ⟨i, hi⟩ = p.1 ∧
      mSet m ((dim_names m).get ⟨i, hi⟩) = p.2 ∧
      p.2 ≠ [] ∧ p ∈ m ∧
      ∀ hd : i < ((activeDims m).map Prod.snd).length,
        ((activeDims m).map Prod.snd).get ⟨i, hd⟩ = pySorted (p.2.map Prod.fst) := by
  have hiF : i < (m.filter (fun p => !p.2.isEmpty)).length := by
    rw [← dim_names_length m]
    exact hi
  refine ⟨hiF, ?_, ?_, ?_, ?_, ?_⟩
  · simp [dim_names, activeDims]
  · have h1 : (dim_names m).get ⟨i, hi⟩ =
        ((m.filter (fun p => !p.2.isEmpty)).get ⟨i, hiF⟩).1 := by
      simp [dim_names, activeDims]
    rw [h1]
    exact mSet_self m hm _
      (List.mem_of_mem_filter (List.get_mem _ _ hiF))
  · have hmem := List.get_mem (m.filter (fun p => !p.2.isEmpty)) _ hiF
    have := List.of_mem_filter hmem
    simpa using this
  · exact List.mem_of_mem_filter (List.get_mem _ _ hiF)
  · intro hd
    simp [activeDims]

theorem sumVals_nonneg (l : Dict) (h : ∀ r ∈ l, 0 ≤ r.2) : 0 ≤ sumVals l := by
  unfold sumVals
  refine List.sum_nonneg ?_
  intro x hx
  rcases List.mem_map.mp hx with ⟨r, hr, hrx⟩
  rw [← hrx]
  exact h r hr

theorem mem_dim_names_mSet (m : Marginals) (hm : (m.map Prod.fst).Nodup)
    (d : String) (hd : d ∈ dim_names m) :
    ∃ p ∈ m, p.1 = d ∧ mSet m d = p.2 ∧ p.2 ≠ [] := by
  rcases List.mem_map.mp hd with ⟨q, hq, hq1⟩
  rcases List.mem_map.mp hq with ⟨p, hpF, hpg⟩
  have hd1 : p.1 = d := by
    rw [← hq1, ← hpg]
  have hpm : p ∈ m := List.mem_of_mem_filter hpF
  refine ⟨p, hpm, hd1, ?_, ?_⟩
  · rw [← hd1]
    exact mSet_self m hm p hpm
  · have := List.of_mem_filter hpF
    simpa using this

/-- The exact-reconstruction property of the greedy pass over the real
pipeline inputs: the enumerated cross-product of the active dimensions,
sorted by an arbitrary weight table.  All conclusions are independent of
the weights. -/
theorem pipeline_exact
    (m : Marginals) (wt : WTable) (total : Int)
    (hm : (m.map Prod.fst).Nodup)
    (hknd : ∀ p ∈ m, (p.2.map Prod.fst).Nodup)
    (hrows : ∀ p ∈ m, ∀ r ∈ p.2, 0 ≤ r.2)
    (hsum : ∀ p ∈ m, p.2 ≠ [] → sumVals p.2 = total)
    (hact : activeDims m ≠ []) :
    (assignState (combinations m) (dim_names m) m wt total).remaining = 0 ∧
    ((assignState (combinations m) (dim_names m) m wt total).events.length :
      Int) = total ∧
    (∀ (i : Nat) (hi : i < (dim_names m).length) (v : String),
      (assignState (combinations m) (dim_names m) m wt total).quotas
        ((dim_names m).get ⟨i, hi⟩) v = 0) ∧
    (∀ (i : Nat) (hi : i < (dim_names m).length) (v : String),
      (countVal (assignState (combinations m) (dim_names m) m wt
        total).events i v : Int) =
        alGet (mSet m ((dim_names m).get ⟨i, hi⟩)) v) := by
  have hlen_eq : ((activeDims m).map Prod.snd).length = (dim_names m).length := by
    unfold dim_names
    rw [List.length_map, List.length_map]
  have hknd2 : ∀ d ∈ dim_names m, ((mSet m d).map Prod.fst).Nodup := by
    intro d hd
    rcases mem_dim_names_mSet m hm d hd with ⟨p, hpm, _, hms, _⟩
    rw [hms]
    exact hknd p hpm
  have hnn := alGet_mSet_nonneg m hrows
  have hdNpos : 0 < (dim_names m).length := by
    unfold dim_names
    rw [List.length_map]
    exact List.length_pos.mpr hact
  have htot : 0 ≤ total := by
    rcases activeDims_get_spec m hm 0 hdNpos with ⟨hiF, _, hms, hne, hpm, _⟩
    rw [← hsum _ hpm hne]
    exact sumVals_nonneg _ (hrows _ hpm)
  have hsum2 : ∀ (i : Nat) (hi : i < (dim_names m).length),
      sumVals (mSet m ((dim_names m).get ⟨i, hi⟩)) = total := by
    intro i hi
    rcases activeDims_get_spec m hm i hi with ⟨hiF, _, hms, hne, hpm, _⟩
    rw [hms]
    exact hsum _ hpm hne
  have hlen : ∀ c ∈ sortCombosByWeight (combinations m) wt,
      c.length = (dim_names m).length := by
    intro c hc
    rw [mem_sortCombosByWeight] at hc
    rw [enumCombos_length _ c hc, hlen_eq]
  have hcomplete : ∀ c : Combo, c.length = (dim_names m).length →
      (∀ (i : Nat) (hi : i < (dim_names m).length) (hci : i < c.length),
        c.get ⟨i, hci⟩ ∈ (mSet m ((dim_names m).get ⟨i, hi⟩)).map Prod.fst) →
      c ∈ sortCombosByWeight (combinations m) wt := by
    intro c hclen hcmem
    rw [mem_sortCombosByWeight]
    refine enumCombos_complete _ c (by rw [hclen, hlen_eq]) ?_
    intro i h1 h2
    have hi : i < (dim_names m).length := by
      rw [← hlen_eq]
      exact h2
    rcases activeDims_get_spec m hm i hi with ⟨hiF, _, hms, _, _, hdom⟩
    rw [hdom h2, mem_pySorted]
    have := hcmem i hi h1
    rw [hms] at this
    exact this
  exact assign_exact_counts m (dim_names m) total
    (sortCombosByWeight (combinations m) wt)
    (dim_names_nodup m hm) hknd2 hnn htot hsum2 hlen hcomplete

theorem alGet_reconstructDim (events : List Combo) (i : Nat) (v : String) :
    alGet (reconstructDim events i) v = (countVal events i v : Int) := by
  unfold reconstructDim
  rw [alGet_accumRows, List.filter_map, List.map_map]
  have h1 : ((events.filter fun c => c.getD i "" == v).map
      (Prod.snd ∘ fun c => (c.getD i "", (1 : Int)))) =
      List.replicate (events.filter fun c => c.getD i "" == v).length 1 := by
    rw [show (Prod.snd ∘ fun c => (c.getD i "", (1 : Int))) =
      Function.const Combo (1 : Int) from rfl]
    exact List.map_const _ 1
  have h2 : (events.filter fun c =>
      ((fun r => r.1 == v) ∘ fun c => (c.getD i "", (1 : Int))) c) =
      events.filter fun c => c.getD i "" == v := rfl
  rw [h2, h1, List.sum_replicate]
  unfold countVal
  simp

theorem dimMatches_of_counts (orig : Dict) (events : List Combo) (i : Nat)
    (h : ∀ v, (countVal events i v : Int) = alGet orig v) :
    dimMatches orig (reconstructDim events i) = true := by
  unfold dimMatches
  rw [List.all_eq_true]
  intro k _
  rw [beq_iff_eq, alGet_reconstructDim, ← h k]

theorem assignStep_quotas_nonneg (dN : List String) (hdN : dN.Nodup)
    (s : AState) (c : Combo) (h : ∀ d v, 0 ≤ s.quotas d v) :
    ∀ d v, 0 ≤ (assignStep dN s c).quotas d v := by
  intro d v
  rw [assignStep_eq]
  by_cases hre : s.remaining ≤ 0
  · rw [if_pos hre]
    exact h d v
  · rw [if_neg hre]
    by_cases hn : 0 < maxAssignable dN s.quotas c s.remaining
    · rw [if_pos hn]
      show 0 ≤ decQuotas dN s.quotas c _ d v
      rw [decQuotas_get dN c _ (zip_fst_nodup dN c hdN)]
      by_cases hm : (d, v) ∈ dN.zip c
      · rw [if_pos hm, sub_nonneg]
        exact foldl_min_le_elem (fun p => s.quotas p.1 p.2) (dN.zip c) _ _ hm
      · rw [if_neg hm, sub_zero]
        exact h d v
    · rw [if_neg hn]
      exact h d v

theorem runAssign_quotas_nonneg (dN : List String) (hdN : dN.Nodup)
    (m : Marginals) (total : Int) (combos : List Combo)
    (hnn : ∀ d v, 0 ≤ alGet (mSet m d) v) :
    ∀ d v, 0 ≤ (runAssign dN m total combos).quotas d v := by
  have hgen : ∀ (cs : List Combo) (s : AState), (∀ d v, 0 ≤ s.quotas d v) →
      ∀ d v, 0 ≤ (cs.foldl (assignStep dN) s).quotas d v := by
    intro cs
    induction cs with
    | nil => intro s hs; exact hs
    | cons c t ih =>
      intro s hs
      rw [List.foldl_cons]
      exact ih (assignStep dN s c) (assignStep_quotas_nonneg dN hdN s c hs)
  exact hgen combos _ (fun d v => hnn d v)

/-- C1.  For a jointly feasible marginal set — duplicate-free dimension
names and category keys, non-negative counts, every nonempty dimension
summing to the common total, and at least one active dimension — the
greedy integer assignment over the enumerated cross-product (sorted by an
arbitrary weight table, covering whatever order the float IPF weights
induce) produces an event list whose per-dimension recount reproduces
every input marginal pointwise, so the round-trip verifier's comparison
reports a match for every dimension.  (Under these hypotheses a consistent
joint contingency table always exists; the solver's own output is one.) -/
theorem round_trip_idempotence
    (m : Marginals) (wt : WTable) (total : Int)
    (hm : (m.map Prod.fst).Nodup)
    (hknd : ∀ p ∈ m, (p.2.map Prod.fst).Nodup)
    (hrows : ∀ p ∈ m, ∀ r ∈ p.2, 0 ≤ r.2)
    (hsum : ∀ p ∈ m, p.2 ≠ [] → sumVals p.2 = total)
    (hact : activeDims m ≠ []) :
    (∀ (i : Nat) (hi : i < (dim_names m).length) (v : String),
      (countVal (solve_integer_assignment (combinations m) (dim_names m) m
        wt total) i v : Int) =
        alGet (mSet m ((dim_names m).get ⟨i, hi⟩)) v) ∧
    (∀ (i : Nat) (hi : i < (dim_names m).length),
      dimMatches (mSet m ((dim_names m).get ⟨i, hi⟩))
        (reconstructDim (solve_integer_assignment (combinations m)
          (dim_names m) m wt total) i) = true) := by
  obtain ⟨h1, h2, h3, h4⟩ := pipeline_exact m wt total hm hknd hrows hsum hact
  refine ⟨fun i hi v => h4 i hi v, ?_⟩
  intro i hi
  exact dimMatches_of_counts _ _ _ (fun v => h4 i hi v)

/-- Witness for C1 at the concrete feasible scenario: the verifier's
per-dimension comparison succeeds for the pages dimension. -/
theorem round_trip_idempotence_witness :
    dimMatches (mSet exampleMarginals "pages")
      (reconstructDim (solve_integer_assignment (combinations exampleMarginals)
        (dim_names exampleMarginals) exampleMarginals [] 5) 0) = true := by
  have h := (round_trip_idempotence exampleMarginals [] 5 (by decide)
    (by decide) (by decide) (by decide) (by decide)).2 0 (by decide)
  exact h

/-- C2.  On the concrete marginals
`{pages: {"/a": 3, "/b": 2}, browsers: {"Chrome": 4, "Safari": 1}}` with
`N = 5`, the solver emits exactly 5 events, the per-dimension recount
equals each input marginal pointwise, and every remaining quota is zero —
for every weight table, hence in particular for the IPF weights the
pipeline computes. -/
theorem concrete_scenario_exact (wt : WTable) :
    (solve_integer_assignment (combinations exampleMarginals)
      (dim_names exampleMarginals) exampleMarginals wt 5).length = 5 ∧
    (∀ v : String,
      (countVal (solve_integer_assignment (combinations exampleMarginals)
        (dim_names exampleMarginals) exampleMarginals wt 5) 0 v : Int) =
        alGet (mSet exampleMarginals "pages") v) ∧
    (∀ v : String,
      (countVal (solve_integer_assignment (combinations exampleMarginals)
        (dim_names exampleMarginals) exampleMarginals wt 5) 1 v : Int) =
        alGet (mSet exampleMarginals "browsers") v) ∧
    (∀ d v : String,
      (assignState (combinations exampleMarginals)
        (dim_names exampleMarginals) exampleMarginals wt 5).quotas d v = 0) := by
  obtain ⟨h1, h2, h3, h4⟩ := pipeline_exact exampleMarginals wt 5 (by decide)
    (by decide) (by decide) (by decide) (by decide)
  refine ⟨?_, ?_, ?_, ?_⟩
  · exact_mod_cast h2
  · intro v
    exact h4 0 (by decide) v
  · intro v
    exact h4 1 (by decide) v
  · intro d v
    by_cases hd1 : d = "pages"
    · subst hd1
      exact h3 0 (by decide) v
    · by_cases hd2 : d = "browsers"
      · subst hd2
        exact h3 1 (by decide) v
      · have hms : mSet exampleMarginals d = [] := by
          unfold mSet
          rw [List.find?_eq_none.mpr]
          intro p hp
          have : p = ("pages", [("/a", (3 : Int)), ("/b", 2)]) ∨
              p = ("browsers", [("Chrome", (4 : Int)), ("Safari", 1)]) := by
            simpa [exampleMarginals] using hp
          rcases this with h | h <;> subst h <;> simpa using (by
            first
            | exact fun he => hd1 he.symm
            | exact fun he => hd2 he.symm)
        have hle : (assignState (combinations exampleMarginals)
            (dim_names exampleMarginals) exampleMarginals wt 5).quotas d v ≤ 0 := by
          have hmono := foldl_quotas_le (dim_names exampleMarginals) (by decide)
            (sortCombosByWeight (combinations exampleMarginals) wt)
            ⟨[], initQuotas exampleMarginals, 5⟩ d v
          have : initQuotas exampleMarginals d v = 0 := by
            unfold initQuotas
            rw [hms]
            rfl
          calc (assignState (combinations exampleMarginals)
              (dim_names exampleMarginals) exampleMarginals wt 5).quotas d v
              ≤ initQuotas exampleMarginals d v := hmono
            _ = 0 := this
        have hge := runAssign_quotas_nonneg (dim_names exampleMarginals)
          (by decide) exampleMarginals 5
          (sortCombosByWeight (combinations exampleMarginals) wt)
          (alGet_mSet_nonneg exampleMarginals (by decide)) d v
        exact le_antisymm hle hge

/-- C3.  On the infeasible scenario with `N = 3` the solver assigns at most
2 events, leaves a positive residual event count and a positive leftover
pages quota, never inflates any browser count beyond its marginal — for
every weight table — and the full `solve_exact_distribution` pipeline
returns normally (`isSome`; a raise would be `none`) on this input. -/
theorem infeasible_scenario_partial :
    (∀ wt : WTable,
      (solve_integer_assignment (combinations infeasibleMarginals)
        (dim_names infeasibleMarginals) infeasibleMarginals wt 3).length ≤ 2 ∧
      0 < (assignState (combinations infeasibleMarginals)
        (dim_names infeasibleMarginals) infeasibleMarginals wt 3).remaining ∧
      0 < (assignState (combinations infeasibleMarginals)
        (dim_names infeasibleMarginals) infeasibleMarginals wt 3).quotas
          "pages" "/a" ∧
      (∀ v : String,
        (countVal (solve_integer_assignment (combinations infeasibleMarginals)
          (dim_names infeasibleMarginals) infeasibleMarginals wt 3) 1 v :
            Int) ≤ alGet (mSet infeasibleMarginals "browsers") v)) ∧
    (solve_exact_distribution infeasibleMarginals).isSome = true := by
  refine ⟨?_, by decide⟩
  intro wt
  have hlen : ∀ c ∈ sortCombosByWeight (combinations infeasibleMarginals) wt,
      c.length = (dim_names infeasibleMarginals).length := by
    intro c hc
    rw [mem_sortCombosByWeight] at hc
    rw [enumCombos_length _ c hc]
    decide
  have hInv : AInv infeasibleMarginals (dim_names infeasibleMarginals) 3
      (assignState (combinations infeasibleMarginals)
        (dim_names infeasibleMarginals) infeasibleMarginals wt 3) :=
    foldl_inv infeasibleMarginals (dim_names infeasibleMarginals) 3
      (by decide) (by decide) _ _
      (inv_init infeasibleMarginals (dim_names infeasibleMarginals) 3
        (by decide) (alGet_mSet_nonneg infeasibleMarginals (by decide))
        (by norm_num)) hlen
  set A := assignState (combinations infeasibleMarginals)
    (dim_names infeasibleMarginals) infeasibleMarginals wt 3 with hA_def
  have hks : ((mSet infeasibleMarginals "browsers").map
      (fun r => A.quotas "browsers" r.1)).sum + (A.events.length : Int) =
      sumVals (mSet infeasibleMarginals "browsers") := hInv.keySum 1 (by decide)
  have hksnn : 0 ≤ ((mSet infeasibleMarginals "browsers").map
      (fun r => A.quotas "browsers" r.1)).sum := by
    refine List.sum_nonneg ?_
    intro x hx
    rcases List.mem_map.mp hx with ⟨r, _, hrx⟩
    rw [← hrx]
    exact hInv.qNonneg _ _
  have hsv : sumVals (mSet infeasibleMarginals "browsers") = 2 := by decide
  rw [hsv] at hks
  have hlen2 : (A.events.length : Int) ≤ 2 := by linarith
  have hre : 0 < A.remaining := by
    have hc := hInv.conserve
    linarith
  refine ⟨by exact_mod_cast hlen2, hre, ?_, ?_⟩
  · have hb : (countVal A.events 0 "/a" : Int) + A.quotas "pages" "/a" =
        alGet (mSet infeasibleMarginals "pages") "/a" := hInv.balance 0 (by decide) "/a"
    have hcv : countVal A.events 0 "/a" ≤ A.events.length :=
      List.length_filter_le _ _
    have hag : alGet (mSet infeasibleMarginals "pages") "/a" = 3 := by decide
    rw [hag] at hb
    have : (countVal A.events 0 "/a" : Int) ≤ 2 := by
      calc (countVal A.events 0 "/a" : Int) ≤ (A.events.length : Int) := by
            exact_mod_cast hcv
        _ ≤ 2 := hlen2
    linarith
  · intro v
    have hb : (countVal A.events 1 v : Int) + A.quotas "browsers" v =
        alGet (mSet infeasibleMarginals "browsers") v := hInv.balance 1 (by decide) v
    have := hInv.qNonneg "browsers" v
    show (countVal A.events 1 v : Int) ≤ alGet (mSet infeasibleMarginals "browsers") v
    linarith

/-- C4.  Throughout the greedy assignment over the weight-sorted
combination list: after any prefix of the loop the quotas are non-negative,
processing further combinations never increases any quota, and consequently
the final output never contains more events with a given category value
than that value's original marginal count.  Hypotheses: duplicate-free
dimension names and category keys and non-negative marginal counts (the
data-model invariant of a MarginalSet), a non-negative target, and
combinations covering each dimension exactly once (as the cross-product
dicts of the source do). -/
theorem quota_monotonicity
    (m : Marginals) (dN : List String) (wt : WTable) (total : Int)
    (combos : List Combo)
    (hdN : dN.Nodup)
    (hknd : ∀ d ∈ dN, ((mSet m d).map Prod.fst).Nodup)
    (hnn : ∀ d v, 0 ≤ alGet (mSet m d) v)
    (htot : 0 ≤ total)
    (hlen : ∀ c ∈ combos, c.length = dN.length) :
    (∀ l1 l2 : List Combo, sortCombosByWeight combos wt = l1 ++ l2 →
      ∀ d v : String,
        0 ≤ (runAssign dN m total l1).quotas d v ∧
        (runAssign dN m total (l1 ++ l2)).quotas d v ≤
          (runAssign dN m total l1).quotas d v) ∧
    (∀ (i : Nat) (hi : i < dN.length) (v : String),
      (countVal (solve_integer_assignment combos dN m wt total) i v : Int) ≤
        alGet (mSet m (dN.get ⟨i, hi⟩)) v) := by
  have hlen_sorted : ∀ c ∈ sortCombosByWeight combos wt, c.length = dN.length := by
    intro c hc
    exact hlen c ((mem_sortCombosByWeight combos wt c).mp hc)
  constructor
  · intro l1 l2 hsplit d v
    constructor
    · exact runAssign_quotas_nonneg dN hdN m total l1 hnn d v
    · unfold runAssign
      rw [List.foldl_append]
      exact foldl_quotas_le dN hdN l2 _ d v
  · intro i hi v
    have hInv : AInv m dN total (assignState combos dN m wt total) :=
      foldl_inv m dN total hdN hknd _ _
        (inv_init m dN total hknd hnn htot) hlen_sorted
    have hb := hInv.balance i hi v
    have hq := hInv.qNonneg (dN.get ⟨i, hi⟩) v
    show (countVal (assignState combos dN m wt total).events i v : Int) ≤
      alGet (mSet m (dN.get ⟨i, hi⟩)) v
    linarith

/-- Witness for C4 at the concrete feasible scenario: the recount of
`"/a"` in the solver's output does not exceed its marginal count 3, and
quotas after the whole run are bounded by quotas after the empty prefix. -/
theorem quota_monotonicity_witness :
    ((countVal (solve_integer_assignment (combinations exampleMarginals)
      (dim_names exampleMarginals) exampleMarginals [] 5) 0 "/a" : Int) ≤
      alGet (mSet exampleMarginals "pages") "/a") ∧
    (runAssign (dim_names exampleMarginals) exampleMarginals 5
      ([] ++ sortCombosByWeight (combinations exampleMarginals) [])).quotas
        "pages" "/a" ≤
      (runAssign (dim_names exampleMarginals) exampleMarginals 5 []).quotas
        "pages" "/a" := by
  have h := quota_monotonicity exampleMarginals (dim_names exampleMarginals)
    [] 5 (combinations exampleMarginals) (by decide) (by decide)
    (alGet_mSet_nonneg exampleMarginals (by decide)) (by norm_num)
    (fun c hc => by rw [enumCombos_length _ c hc]; decide)
  exact ⟨h.2 0 (by decide) "/a",
    (h.1 [] (sortCombosByWeight (combinations exampleMarginals) []) rfl
      "pages" "/a").2⟩

/-- Witness for C2: at the empty weight table the solver emits exactly 5
events on the concrete feasible scenario. -/
theorem concrete_scenario_exact_witness :
    (solve_integer_assignment (combinations exampleMarginals)
      (dim_names exampleMarginals) exampleMarginals [] 5).length = 5 :=
  (concrete_scenario_exact []).1

theorem apply_zero_pins (t : WTable) (dN : List String) (cd : String)
    (marg : QDict) (v : String)
    (hagg : aggWeight t (dN.indexOf cd) v = 0) :
    ∀ e ∈ apply_marginal_constraint_simple t dN cd marg,
      e.1.getD (dN.indexOf cd) "" = v → e.2 = 0 := by
  intro e he hev
  unfold apply_marginal_constraint_simple at he
  rcases List.mem_map.mp he with ⟨a, ha, hae⟩
  by_cases hcur : 0 < aggWeight t (dN.indexOf cd) (a.1.getD (dN.indexOf cd) "")
  · rw [if_pos hcur] at hae
    have hfst : e.1 = a.1 := by rw [← hae]
    rw [hfst] at hev
    rw [hev] at hcur
    rw [hagg] at hcur
    exact absurd hcur (lt_irrefl 0)
  · rw [if_neg hcur] at hae
    rw [← hae]

theorem apply_preserves_zero (t : WTable) (dN : List String) (cd : String)
    (marg : QDict) (c : Combo) (hz : zeroAt t c) :
    zeroAt (apply_marginal_constraint_simple t dN cd marg) c := by
  intro e he hec
  unfold apply_marginal_constraint_simple at he
  rcases List.mem_map.mp he with ⟨a, ha, hae⟩
  by_cases hcur : 0 < aggWeight t (dN.indexOf cd) (a.1.getD (dN.indexOf cd) "")
  · rw [if_pos hcur] at hae
    have hfst : a.1 = c := by
      rw [← hec, ← hae]
    have ha2 : a.2 = 0 := hz a ha hfst
    rw [← hae]
    show a.2 * _ = 0
    rw [ha2, zero_mul]
  · rw [if_neg hcur] at hae
    rw [← hae]

theorem sweep_preserves_zero (dN : List String) (nm : NMarg) (c : Combo) :
    ∀ t : WTable, zeroAt t c → zeroAt (ipfSweep dN nm t) c := by
  unfold ipfSweep
  suffices h : ∀ (ds : List String) (t : WTable), zeroAt t c →
      zeroAt (ds.foldl
        (fun t2 d =>
          if (nm.find? (fun p => p.1 == d)).isSome then
            apply_marginal_constraint_simple t2 dN d (nmGet nm d)
          else t2) t) c by
    exact fun t hz => h dN t hz
  intro ds
  induction ds with
  | nil => intro t hz; exact hz
  | cons d rest ih =>
    intro t hz
    rw [List.foldl_cons]
    apply ih
    by_cases hd : ((nm.find? (fun p => p.1 == d)).isSome = true)
    · rw [if_pos hd]
      exact apply_preserves_zero t dN d (nmGet nm d) c hz
    · rw [if_neg hd]
      exact hz

theorem iter_preserves_zero (dN : List String) (nm : NMarg) (c : Combo) :
    ∀ (fuel : Nat) (t : WTable), zeroAt t c →
      zeroAt (ipfIter dN nm fuel t).1 c := by
  intro fuel
  induction fuel with
  | zero => intro t hz; exact hz
  | succ k ih =>
    intro t hz
    show zeroAt (ipfIter dN nm (k + 1) t).1 c
    unfold ipfIter
    by_cases hc : totalChange (ipfSweep dN nm t) t < ipfTol
    · rw [if_pos hc]
      exact sweep_preserves_zero dN nm c t hz
    · rw [if_neg hc]
      exact ih (ipfSweep dN nm t) (sweep_preserves_zero dN nm c t hz)

/-- C5.  (i) In every constraint application, a category value whose
current aggregated weight is zero forces weight zero onto every
combination containing that value; (ii) a combination whose weight is zero
keeps weight zero through any further constraint application; and (iii)
through every further sweep of the bounded IPF iteration — the zero cell is
absorbing and never revived. -/
theorem ipf_zero_absorbing :
    (∀ (t : WTable) (dN : List String) (cd : String) (marg : QDict)
        (v : String),
      aggWeight t (dN.indexOf cd) v = 0 →
      ∀ e ∈ apply_marginal_constraint_simple t dN cd marg,
        e.1.getD (dN.indexOf cd) "" = v → e.2 = 0) ∧
    (∀ (t : WTable) (dN : List String) (cd : String) (marg : QDict)
        (c : Combo), zeroAt t c →
      zeroAt (apply_marginal_constraint_simple t dN cd marg) c) ∧
    (∀ (dN : List String) (nm : NMarg) (c : Combo) (fuel : Nat) (t : WTable),
      zeroAt t c → zeroAt (ipfIter dN nm fuel t).1 c) :=
  ⟨apply_zero_pins, apply_preserves_zero,
    fun dN nm c fuel t hz => iter_preserves_zero dN nm c fuel t hz⟩

/-- Witness for C5 on a concrete two-cell table: the value `"x"` has zero
aggregate, so its combination is pinned to zero by one application and
stays zero through three full sweeps. -/
theorem ipf_zero_absorbing_witness :
    (∀ e ∈ apply_marginal_constraint_simple [(["x"], 0), (["y"], 5)]
        ["d"] "d" [("x", 1), ("y", 1)],
      e.1.getD (List.indexOf "d" ["d"]) "" = "x" → e.2 = 0) ∧
    zeroAt (ipfIter ["d"] [("d", [("x", 1), ("y", 1)])] 3
      [(["x"], 0), (["y"], 5)]).1 ["x"] := by
  have hzero : zeroAt [(["x"], 0), (["y"], 5)] ["x"] := by
    intro e he hec
    rcases List.mem_cons.mp he with h | h
    · rw [h]
    · rw [List.mem_singleton.mp h] at hec ⊢
      exact absurd hec (by decide)
  constructor
  · refine ipf_zero_absorbing.1 [(["x"], 0), (["y"], 5)] ["d"] "d"
      [("x", 1), ("y", 1)] "x" ?_
    norm_num [aggWeight, List.getD]
    decide
  · exact ipf_zero_absorbing.2.2 ["d"] [("d", [("x", 1), ("y", 1)])] ["x"] 3
      [(["x"], 0), (["y"], 5)] hzero

theorem ipfIter_spec (dN : List String) (nm : NMarg) :
    ∀ (fuel : Nat) (t : WTable),
      (ipfIter dN nm fuel t).2 ≤ fuel ∧
      (ipfIter dN nm fuel t).1 = sweepN dN nm (ipfIter dN nm fuel t).2 t ∧
      ((ipfIter dN nm fuel t).2 < fuel →
        0 < (ipfIter dN nm fuel t).2 ∧
        totalChange (sweepN dN nm (ipfIter dN nm fuel t).2 t)
          (sweepN dN nm ((ipfIter dN nm fuel t).2 - 1) t) < ipfTol) ∧
      (∀ j : Nat, 0 < j → j < (ipfIter dN nm fuel t).2 →
        ¬ totalChange (sweepN dN nm j t) (sweepN dN nm (j - 1) t) < ipfTol) := by
  intro fuel
  induction fuel with
  | zero =>
    intro t
    refine ⟨le_refl 0, rfl, ?_, ?_⟩
    · intro h
      exact absurd h (by simp [ipfIter])
    · intro j _ hj
      exact absurd hj (by simp [ipfIter])
  | succ fuel ih =>
    intro t
    have hunf : ipfIter dN nm (fuel + 1) t =
        (if totalChange (ipfSweep dN nm t) t < ipfTol
          then (ipfSweep dN nm t, 1)
          else ((ipfIter dN nm fuel (ipfSweep dN nm t)).1,
                (ipfIter dN nm fuel (ipfSweep dN nm t)).2 + 1)) := rfl
    by_cases hc : totalChange (ipfSweep dN nm t) t < ipfTol
    · have hres : ipfIter dN nm (fuel + 1) t = (ipfSweep dN nm t, 1) := by
        rw [hunf, if_pos hc]
      rw [hres]
      refine ⟨Nat.succ_le_succ (Nat.zero_le fuel), rfl, ?_, ?_⟩
      · intro _
        exact ⟨Nat.one_pos, hc⟩
      · intro j hj0 hj1
        omega
    · have hres : ipfIter dN nm (fuel + 1) t =
          ((ipfIter dN nm fuel (ipfSweep dN nm t)).1,
           (ipfIter dN nm fuel (ipfSweep dN nm t)).2 + 1) := by
        rw [hunf, if_neg hc]
      rcases ih (ipfSweep dN nm t) with ⟨ih1, ih2, ih3, ih4⟩
      rw [hres]
      refine ⟨Nat.succ_le_succ ih1, ih2, ?_, ?_⟩
      · intro hlt
        have hlt2 : (ipfIter dN nm fuel (ipfSweep dN nm t)).2 < fuel :=
          Nat.lt_of_succ_lt_succ hlt
        rcases ih3 hlt2 with ⟨hpos, hchg⟩
        refine ⟨Nat.succ_pos _, ?_⟩
        rcases Nat.exists_eq_add_of_lt hpos with ⟨j, hj⟩
        have hk : (ipfIter dN nm fuel (ipfSweep dN nm t)).2 = j + 1 := by
          omega
        rw [hk]
        rw [hk] at hchg
        simpa [sweepN] using hchg
      · intro j hj0 hjlt
        cases j with
        | zero => exact absurd hj0 (lt_irrefl 0)
        | succ jj =>
          cases jj with
          | zero =>
            simpa [sweepN] using hc
          | succ kk =>
            have h4 := ih4 (kk + 1) (Nat.succ_pos kk) (by omega)
            simpa [sweepN] using h4

theorem run_ipf_eq (m : Marginals) (total : Int)
    (h1 : (m.map dimSum).max? = some total)
    (h2 : ¬(total = 0 ∧ m.any (fun p => !p.2.isEmpty) = true)) :
    run_ipf_for_weights m =
      some ((ipfIter (dim_names m) (ipf_norm_marginals m total) 50
        (ipf_init_table m)).1, none, dim_names m) := by
  have hunf : run_ipf_for_weights m =
      (match (m.map dimSum).max? with
      | none => none
      | some total =>
        if total = 0 ∧ (m.any fun p => !p.2.isEmpty) = true then none
        else
          some ((ipfIter (dim_names m) (ipf_norm_marginals m total) 50
            (ipf_init_table m)).1, none, dim_names m)) := rfl
  rw [hunf, h1]
  show (if total = 0 ∧ (m.any fun p => !p.2.isEmpty) = true then none
      else
        some ((ipfIter (dim_names m) (ipf_norm_marginals m total) 50
          (ipf_init_table m)).1, none, dim_names m)) = _
  rw [if_neg h2]

/-- C6 (amended).  On inputs that do not hit the raising path (`max()` of
a nonempty marginals dict, normalization total nonzero whenever some
dimension is nonempty), `run_ipf_for_weights` returns normally; the loop
performs at most 50 sweeps; its result is exactly the table after that
many sweeps; when it performed fewer than 50 sweeps it stopped at the
first sweep whose total absolute change fell below the `1e-8` tolerance
and no earlier sweep was below tolerance.  The middle component of the
returned triple — the only candidate convergence signal — is the literal
`none` regardless of whether the tolerance was ever reached, so
non-convergence is not signalled to the caller. -/
theorem ipf_bounded_no_signal (m : Marginals) (total : Int)
    (h1 : (m.map dimSum).max? = some total)
    (h2 : ¬(total = 0 ∧ m.any (fun p => !p.2.isEmpty) = true)) :
    run_ipf_for_weights m =
      some ((ipfIter (dim_names m) (ipf_norm_marginals m total) 50
        (ipf_init_table m)).1, none, dim_names m) ∧
    (ipfIter (dim_names m) (ipf_norm_marginals m total) 50
      (ipf_init_table m)).2 ≤ 50 ∧
    (ipfIter (dim_names m) (ipf_norm_marginals m total) 50
      (ipf_init_table m)).1 =
      sweepN (dim_names m) (ipf_norm_marginals m total)
        (ipfIter (dim_names m) (ipf_norm_marginals m total) 50
          (ipf_init_table m)).2 (ipf_init_table m) ∧
    ((ipfIter (dim_names m) (ipf_norm_marginals m total) 50
        (ipf_init_table m)).2 < 50 →
      0 < (ipfIter (dim_names m) (ipf_norm_marginals m total) 50
        (ipf_init_table m)).2 ∧
      totalChange
        (sweepN (dim_names m) (ipf_norm_marginals m total)
          (ipfIter (dim_names m) (ipf_norm_marginals m total) 50
            (ipf_init_table m)).2 (ipf_init_table m))
        (sweepN (dim_names m) (ipf_norm_marginals m total)
          ((ipfIter (dim_names m) (ipf_norm_marginals m total) 50
            (ipf_init_table m)).2 - 1) (ipf_init_table m)) < ipfTol) ∧
    (∀ j : Nat, 0 < j →
      j < (ipfIter (dim_names m) (ipf_norm_marginals m total) 50
        (ipf_init_table m)).2 →
      ¬ totalChange
          (sweepN (dim_names m) (ipf_norm_marginals m total) j
            (ipf_init_table m))
          (sweepN (dim_names m) (ipf_norm_marginals m total) (j - 1)
            (ipf_init_table m)) < ipfTol) := by
  rcases ipfIter_spec (dim_names m) (ipf_norm_marginals m total) 50
    (ipf_init_table m) with ⟨hs1, hs2, hs3, hs4⟩
  exact ⟨run_ipf_eq m total h1 h2, hs1, hs2, hs3, hs4⟩

/-- Counterexample for C6's "never raises": on the marginal input
`{pages: {"/a": 0}}` (a present dimension whose only count is zero) the
normalization `v / total_events` divides by zero, so
`run_ipf_for_weights` raises `ZeroDivisionError` — the embedding returns
`none` — instead of never raising. -/
theorem ipf_raises_on_zero_total :
    run_ipf_for_weights [("pages", [("/a", 0)])] = none := by
  decide

/-- Witness for the amended C6 on a nonzero one-dimension input. -/
theorem ipf_bounded_no_signal_witness :
    run_ipf_for_weights [("pages", [("/a", 2)])] =
      some ((ipfIter (dim_names [("pages", [("/a", 2)])])
        (ipf_norm_marginals [("pages", [("/a", 2)])] 2) 50
        (ipf_init_table [("pages", [("/a", 2)])])).1, none,
        dim_names [("pages", [("/a", 2)])]) ∧
    (ipfIter (dim_names [("pages", [("/a", 2)])])
      (ipf_norm_marginals [("pages", [("/a", 2)])] 2) 50
      (ipf_init_table [("pages", [("/a", 2)])])).2 ≤ 50 := by
  have h := ipf_bounded_no_signal [("pages", [("/a", 2)])] 2 (by decide)
    (by decide)
  exact ⟨h.1, h.2.1⟩

/-! ## Marginal extractor: the synthetic "(direct)" referrer -/

/-- C7.  In `get_marginal_totals`, the referrers marginal gets a synthetic
`"(direct)"` entry carrying exactly the positive difference when the
explicit referrer counts sum to strictly less than the site total, and is
returned unmodified (no key added, no count altered) when the sum equals
or exceeds the site total. -/
theorem referrers_direct_rule (h : HourlyData) :
    mSet (get_marginal_totals h) "referrers" =
      if sumVals (accumRows h.referrers) < h.site.sum then
        alSet (accumRows h.referrers) "(direct)"
          (h.site.sum - sumVals (accumRows h.referrers))
      else accumRows h.referrers := by
  have hunf : mSet (get_marginal_totals h) "referrers" =
      (if 0 < h.site.sum - sumVals (accumRows h.referrers) then
        alSet (accumRows h.referrers) "(direct)"
          (h.site.sum - sumVals (accumRows h.referrers))
      else accumRows h.referrers) := rfl
  rw [hunf]
  by_cases hlt : sumVals (accumRows h.referrers) < h.site.sum
  · rw [if_pos (by linarith), if_pos hlt]
  · rw [if_neg (by intro hpos; exact hlt (by linarith)), if_neg hlt]

/-- Witness for C7 at a concrete bucket: 10 site pageviews against a
single referrer row summing to 4. -/
theorem referrers_direct_rule_witness :
    mSet (get_marginal_totals ⟨[10], [], [], [], [], [("g.com", 4)]⟩)
      "referrers" =
      (if sumVals (accumRows [("g.com", (4 : Int))]) <
          ([(10 : Int)] : List Int).sum then
        alSet (accumRows [("g.com", (4 : Int))]) "(direct)"
          (([(10 : Int)] : List Int).sum -
            sumVals (accumRows [("g.com", (4 : Int))]))
      else accumRows [("g.com", (4 : Int))]) :=
  referrers_direct_rule ⟨[10], [], [], [], [], [("g.com", 4)]⟩

/-! ## Zero active dimensions -/

/-- Counterexample for C8: with zero active dimensions (an empty marginals
dict, or one whose dimensions are all empty) `solve_exact_distribution`
returns the normal value `some ([], [])` — in this embedding a raise is
`none` — so the call is not treated as a fatal precondition violation. -/
theorem empty_dims_returns_normally :
    solve_exact_distribution [] = some ([], []) ∧
    solve_exact_distribution [("pages", [])] = some ([], []) := by
  decide

/-- C8 (amended).  Invoking `solve_exact_distribution` with zero active
dimensions does not raise: line 22's guard returns the empty result
`([], [])` normally. -/
theorem empty_dims_early_return (m : Marginals) (h : activeDims m = []) :
    solve_exact_distribution m = some ([], []) := by
  unfold solve_exact_distribution
  simp [h]

/-- Witness for the amended C8. -/
theorem empty_dims_early_return_witness :
    solve_exact_distribution [("browsers", [])] = some ([], []) :=
  empty_dims_early_return [("browsers", [])] (by decide)

theorem splitSizes_sum (epv rem : Nat) :
    ∀ (fuel i : Nat),
      (splitSizes epv rem i fuel).sum + min rem i =
        epv * fuel + min rem (i + fuel) := by
  intro fuel
  induction fuel with
  | zero =>
    intro i
    simp [splitSizes]
  | succ k ih =>
    intro i
    rw [splitSizes, List.sum_cons, Nat.mul_succ]
    have hrec := ih (i + 1)
    by_cases hir : i < rem
    · rw [if_pos hir]
      omega
    · rw [if_neg hir]
      omega

theorem splitLoop_flatten (α : Type) (epv rem : Nat) :
    ∀ (fuel i : Nat) (es : List α),
      es.length = (splitSizes epv rem i fuel).sum →
      (splitLoop α epv rem i fuel es).flatten = es := by
  intro fuel
  induction fuel with
  | zero =>
    intro i es hlen
    rw [splitSizes] at hlen
    simp only [List.sum_nil] at hlen
    rw [List.length_eq_zero.mp hlen]
    rfl
  | succ k ih =>
    intro i es hlen
    rw [splitSizes, List.sum_cons] at hlen
    rw [splitLoop]
    by_cases hsz : epv + (if i < rem then 1 else 0) = 0
    · rw [hsz]
      have he : es.take 0 = [] := rfl
      rw [he]
      simp only [List.isEmpty_nil, if_true]
      exact ih (i + 1) (es.drop 0) (by
        rw [List.drop_zero]
        omega)
    · have hszpos : 0 < epv + (if i < rem then 1 else 0) := Nat.pos_of_ne_zero hsz
      have hlen_ge : epv + (if i < rem then 1 else 0) ≤ es.length := by omega
      have htake : (es.take (epv + (if i < rem then 1 else 0))).length =
          epv + (if i < rem then 1 else 0) := by
        rw [List.length_take]
        omega
      have hne : (es.take (epv + (if i < rem then 1 else 0))).isEmpty = false := by
        have : es.take (epv + (if i < rem then 1 else 0)) ≠ [] := by
          intro hnil
          rw [hnil] at htake
          simp at htake
          omega
        simpa using this
      rw [hne]
      simp only [Bool.false_eq_true, if_false, List.flatten_cons]
      rw [ih (i + 1) (es.drop (epv + (if i < rem then 1 else 0))) (by
        rw [List.length_drop]
        omega)]
      exact List.take_append_drop _ es

theorem splitLoop_lengths (α : Type) (epv rem : Nat) :
    ∀ (fuel i : Nat) (es : List α),
      es.length = (splitSizes epv rem i fuel).sum →
      (splitLoop α epv rem i fuel es).map List.length =
        (splitSizes epv rem i fuel).filter (fun s => decide (0 < s)) := by
  intro fuel
  induction fuel with
  | zero =>
    intro i es hlen
    rfl
  | succ k ih =>
    intro i es hlen
    rw [splitSizes, List.sum_cons] at hlen
    rw [splitLoop, splitSizes, List.filter_cons]
    by_cases hsz : epv + (if i < rem then 1 else 0) = 0
    · rw [hsz]
      have he : es.take 0 = [] := rfl
      rw [he]
      simp only [List.isEmpty_nil, if_true, decide_eq_true_eq]
      rw [if_neg (by omega)]
      exact ih (i + 1) (es.drop 0) (by
        rw [List.drop_zero]
        omega)
    · have hszpos : 0 < epv + (if i < rem then 1 else 0) := Nat.pos_of_ne_zero hsz
      have hlen_ge : epv + (if i < rem then 1 else 0) ≤ es.length := by omega
      have htake : (es.take (epv + (if i < rem then 1 else 0))).length =
          epv + (if i < rem then 1 else 0) := by
        rw [List.length_take]
        omega
      have hne : (es.take (epv + (if i < rem then 1 else 0))).isEmpty = false := by
        have : es.take (epv + (if i < rem then 1 else 0)) ≠ [] := by
          intro hnil
          rw [hnil] at htake
          simp at htake
          omega
        simpa using this
      rw [hne]
      simp only [Bool.false_eq_true, if_false, List.map_cons, decide_eq_true_eq]
      rw [if_pos hszpos, htake]
      congr 1
      exact ih (i + 1) (es.drop (epv + (if i < rem then 1 else 0))) (by
        rw [List.length_drop]
        omega)

theorem splitSizes_mem (epv rem : Nat) :
    ∀ (fuel i s : Nat), s ∈ splitSizes epv rem i fuel →
      s = epv ∨ s = epv + 1 := by
  intro fuel
  induction fuel with
  | zero => intro i s h; cases h
  | succ k ih =>
    intro i s h
    rw [splitSizes] at h
    rcases List.mem_cons.mp h with h | h
    · by_cases hir : i < rem
      · rw [if_pos hir] at h
        exact Or.inr h
      · rw [if_neg hir] at h
        exact Or.inl (by omega)
    · exact ih (i + 1) s h

theorem flatten_map_singleton (α : Type) (l : List α) :
    (l.map (fun e => [e])).flatten = l := by
  induction l with
  | nil => rfl
  | cons a t ih =>
    rw [List.map_cons, List.flatten_cons, ih]
    rfl

theorem pyRound_eq (q : ℚ) : pyRound q =
    (if q - ⌊q⌋ < 1 / 2 then ⌊q⌋
     else if 1 / 2 < q - ⌊q⌋ then ⌊q⌋ + 1
     else if ⌊q⌋ % 2 = 0 then ⌊q⌋ else ⌊q⌋ + 1) := rfl

theorem pyRound_cases (q : ℚ) : pyRound q = ⌊q⌋ ∨ pyRound q = ⌊q⌋ + 1 := by
  rw [pyRound_eq]
  split_ifs <;> simp

theorem pyRound_nonneg (q : ℚ) (h : 0 ≤ q) : 0 ≤ pyRound q := by
  have hf : 0 ≤ ⌊q⌋ := Int.floor_nonneg.mpr h
  rcases pyRound_cases q with he | he <;> omega

theorem pyRound_le_of_le (q : ℚ) (z : ℤ) (h : q ≤ (z : ℚ)) : pyRound q ≤ z := by
  have hf : ⌊q⌋ ≤ z := by
    have := Int.floor_le_floor h
    simpa using this
  rw [pyRound_eq]
  split_ifs with h1 h2 h3
  · exact hf
  · by_contra hc
    have hfz : ⌊q⌋ = z := by omega
    have : q - ⌊q⌋ ≤ 0 := by
      rw [hfz]
      linarith
    linarith
  · exact hf
  · by_contra hc
    have hfz : ⌊q⌋ = z := by omega
    have hr0 : q - ⌊q⌋ ≤ 0 := by
      rw [hfz]
      linarith
    have : ¬(q - ⌊q⌋ < 1 / 2) := h1
    linarith

theorem splitSizes_zero_filter :
    ∀ (fuel i : Nat),
      (splitSizes 0 0 i fuel).filter (fun s => decide (0 < s)) = [] := by
  intro fuel
  induction fuel with
  | zero => intro i; rfl
  | succ k ih =>
    intro i
    rw [splitSizes, List.filter_cons]
    rw [if_neg (by simp)]
    exact ih (i + 1)

/-- C9.  For a nonempty event list, visit count at least 1 and bounce rate
in `[0,1]`: the composer's first `min(round(V*b), #events)` visits are the
single-event bounce visits taken from the front of the list (exactly
`round(V*b)` of them unless events run out first); the remaining visits'
sizes are exactly the positive entries of the floor-division plan
`events_per_visit + (1 if i < remainder else 0)`; hence any two created
multi-page visits differ in size by at most 1. -/
theorem bounce_partition (α : Type) (events : List α) (V : ℤ) (b : ℚ)
    (hne : events ≠ []) (_hV : 1 ≤ V) (_hb0 : 0 ≤ b) (_hb1 : b ≤ 1) :
    (create_session_visits α events V b).take
        (min (bounced_visits V b).toNat events.length) =
      (events.take (bounced_visits V b).toNat).map (fun e => [e]) ∧
    ((create_session_visits α events V b).drop
        (min (bounced_visits V b).toNat events.length)).map List.length =
      (splitSizes
        ((events.drop (bounced_visits V b).toNat).length /
          (multi_page_visits V b).toNat)
        ((events.drop (bounced_visits V b).toNat).length %
          (multi_page_visits V b).toNat)
        0 (multi_page_visits V b).toNat).filter (fun s => decide (0 < s)) ∧
    (∀ u ∈ (create_session_visits α events V b).drop
        (min (bounced_visits V b).toNat events.length),
      ∀ w ∈ (create_session_visits α events V b).drop
        (min (bounced_visits V b).toNat events.length),
      u.length ≤ w.length + 1) := by
  have hev : ¬(events.isEmpty = true) := by simpa using hne
  have hunf : create_session_visits α events V b =
      (if 0 < multi_page_visits V b ∧
          (!(events.drop (bounced_visits V b).toNat).isEmpty) = true then
        (events.take (bounced_visits V b).toNat).map (fun e => [e]) ++
          splitLoop α
            ((events.drop (bounced_visits V b).toNat).length /
              (multi_page_visits V b).toNat)
            ((events.drop (bounced_visits V b).toNat).length %
              (multi_page_visits V b).toNat)
            0 (multi_page_visits V b).toNat
            (events.drop (bounced_visits V b).toNat)
      else (events.take (bounced_visits V b).toNat).map (fun e => [e])) := by
    unfold create_session_visits
    rw [if_neg hev]
    rfl
  have hbl : ((events.take (bounced_visits V b).toNat).map
      (fun e => [e])).length = min (bounced_visits V b).toNat events.length := by
    rw [List.length_map, List.length_take]
  by_cases hcond : 0 < multi_page_visits V b ∧
      (!(events.drop (bounced_visits V b).toNat).isEmpty) = true
  · have hMpos : 0 < (multi_page_visits V b).toNat := by
      have := hcond.1
      omega
    have hrem : (events.drop (bounced_visits V b).toNat).length %
        (multi_page_visits V b).toNat < (multi_page_visits V b).toNat :=
      Nat.mod_lt _ hMpos
    have hsum : (events.drop (bounced_visits V b).toNat).length =
        (splitSizes
          ((events.drop (bounced_visits V b).toNat).length /
            (multi_page_visits V b).toNat)
          ((events.drop (bounced_visits V b).toNat).length %
            (multi_page_visits V b).toNat)
          0 (multi_page_visits V b).toNat).sum := by
      have h2 := splitSizes_sum
        ((events.drop (bounced_visits V b).toNat).length /
          (multi_page_visits V b).toNat)
        ((events.drop (bounced_visits V b).toNat).length %
          (multi_page_visits V b).toNat)
        (multi_page_visits V b).toNat 0
      rw [Nat.min_zero, Nat.add_zero, Nat.zero_add,
        min_eq_left (le_of_lt hrem)] at h2
      rw [h2, Nat.mul_comm]
      exact (Nat.div_add_mod _ _).symm
    refine ⟨?_, ?_, ?_⟩
    · rw [hunf, if_pos hcond]
      exact List.take_left' hbl
    · rw [hunf, if_pos hcond, List.drop_left' hbl]
      exact splitLoop_lengths α _ _ _ 0 _ hsum
    · intro u hu w hw
      rw [hunf, if_pos hcond, List.drop_left' hbl] at hu hw
      have hu2 : u.length ∈ (splitLoop α
          ((events.drop (bounced_visits V b).toNat).length /
            (multi_page_visits V b).toNat)
          ((events.drop (bounced_visits V b).toNat).length %
            (multi_page_visits V b).toNat)
          0 (multi_page_visits V b).toNat
          (events.drop (bounced_visits V b).toNat)).map List.length :=
        List.mem_map_of_mem _ hu
      have hw2 : w.length ∈ (splitLoop α
          ((events.drop (bounced_visits V b).toNat).length /
            (multi_page_visits V b).toNat)
          ((events.drop (bounced_visits V b).toNat).length %
            (multi_page_visits V b).toNat)
          0 (multi_page_visits V b).toNat
          (events.drop (bounced_visits V b).toNat)).map List.length :=
        List.mem_map_of_mem _ hw
      rw [splitLoop_lengths α _ _ _ 0 _ hsum] at hu2 hw2
      have hu3 := splitSizes_mem _ _ _ _ _ (List.mem_filter.mp hu2).1
      have hw3 := splitSizes_mem _ _ _ _ _ (List.mem_filter.mp hw2).1
      rcases hu3 with h | h <;> rcases hw3 with h2 | h2 <;> omega
  · refine ⟨?_, ?_, ?_⟩
    · rw [hunf, if_neg hcond]
      exact List.take_of_length_le (le_of_eq hbl)
    · rw [hunf, if_neg hcond, List.drop_eq_nil_of_le (le_of_eq hbl)]
      rcases not_and_or.mp hcond with hm | hr
      · have hM0 : (multi_page_visits V b).toNat = 0 := by omega
        rw [hM0]
        rfl
      · have hlen0 : (events.drop (bounced_visits V b).toNat).length = 0 := by
          have : (events.drop (bounced_visits V b).toNat).isEmpty = true := by
            simpa using hr
          rw [List.isEmpty_iff] at this
          rw [this]
          rfl
        rw [hlen0, Nat.zero_div, Nat.zero_mod, List.map_nil,
          splitSizes_zero_filter]
    · intro u hu
      rw [hunf, if_neg hcond, List.drop_eq_nil_of_le (le_of_eq hbl)] at hu
      cases hu

theorem csv_unfold (α : Type) (events : List α) (V : ℤ) (b : ℚ)
    (hne : events ≠ []) :
    create_session_visits α events V b =
      (if 0 < multi_page_visits V b ∧
          (!(events.drop (bounced_visits V b).toNat).isEmpty) = true then
        (events.take (bounced_visits V b).toNat).map (fun e => [e]) ++
          splitLoop α
            ((events.drop (bounced_visits V b).toNat).length /
              (multi_page_visits V b).toNat)
            ((events.drop (bounced_visits V b).toNat).length %
              (multi_page_visits V b).toNat)
            0 (multi_page_visits V b).toNat
            (events.drop (bounced_visits V b).toNat)
      else (events.take (bounced_visits V b).toNat).map (fun e => [e])) := by
  unfold create_session_visits
  rw [if_neg (by simpa using hne)]
  rfl

theorem rest_length_eq_sizes (len M : Nat) (hM : 0 < M) :
    len = (splitSizes (len / M) (len % M) 0 M).sum := by
  have h2 := splitSizes_sum (len / M) (len % M) M 0
  rw [Nat.min_zero, Nat.add_zero, Nat.zero_add,
    min_eq_left (le_of_lt (Nat.mod_lt _ hM))] at h2
  rw [h2, Nat.mul_comm]
  exact (Nat.div_add_mod _ _).symm

/-- C10.  The composer's metadata loop emits exactly one output record per
partition element, so the emitted events are the flattening of the
partition.  (i) Whenever `round(V*b) < V` — at least one multi-page visit
planned — and the event list is nonempty, the flattening is the entire
input list: no event is dropped or duplicated.  (ii) When
`round(V*b) >= V` (with `V >= 0` and bounce rate in `[0,1]`, forcing
`round(V*b) = V`), the flattening is only the first `V` events: any events
beyond the first `V` are silently omitted. -/
theorem composer_conservation :
    (∀ (α : Type) (events : List α) (V : ℤ) (b : ℚ),
      events ≠ [] → bounced_visits V b < V →
      (create_session_visits α events V b).flatten = events) ∧
    (∀ (α : Type) (events : List α) (V : ℤ) (b : ℚ),
      0 ≤ V → 0 ≤ b → b ≤ 1 → V ≤ bounced_visits V b →
      (create_session_visits α events V b).flatten = events.take V.toNat) := by
  constructor
  · intro α events V b hne hBV
    have hmulti : 0 < multi_page_visits V b := by
      unfold multi_page_visits
      omega
    by_cases hrest : (events.drop (bounced_visits V b).toNat).isEmpty = true
    · rw [csv_unfold α events V b hne, if_neg (by simp [hrest])]
      rw [flatten_map_singleton]
      have hd : events.drop (bounced_visits V b).toNat = [] :=
        List.isEmpty_iff.mp hrest
      have hlen : events.length ≤ (bounced_visits V b).toNat := by
        have := congrArg List.length hd
        rw [List.length_drop] at this
        simpa using Nat.le_of_sub_eq_zero (by simpa using this)
      exact List.take_of_length_le hlen
    · have hMpos : 0 < (multi_page_visits V b).toNat := by
        omega
      rw [csv_unfold α events V b hne,
        if_pos ⟨hmulti, by simp [Bool.not_eq_true] at hrest; simp [hrest]⟩]
      rw [List.flatten_append, flatten_map_singleton,
        splitLoop_flatten α _ _ _ 0 _
          (rest_length_eq_sizes (events.drop (bounced_visits V b).toNat).length
            (multi_page_visits V b).toNat hMpos)]
      exact List.take_append_drop _ events
  · intro α events V b hV0 hb0 hb1 hVB
    have hBle : bounced_visits V b ≤ V := by
      refine pyRound_le_of_le _ V ?_
      calc (V : ℚ) * b ≤ (V : ℚ) * 1 :=
            mul_le_mul_of_nonneg_left hb1 (by exact_mod_cast hV0)
        _ = (V : ℚ) := mul_one _
    have hBV : bounced_visits V b = V := le_antisymm hBle hVB
    by_cases hne : events = []
    · subst hne
      simp [create_session_visits]
    · rw [csv_unfold α events V b hne, if_neg (by
        intro hand
        have h1 := hand.1
        unfold multi_page_visits at h1
        omega)]
      rw [flatten_map_singleton, hBV]

/-- Witness for C9 at events `[10,20,30,40,50]`, `V = 3`, `b = 1/3`:
the bounce visit is taken from the front. -/
theorem bounce_partition_witness :
    (create_session_visits Nat [10, 20, 30, 40, 50] 3 (1 / 3)).take
        (min (bounced_visits 3 (1 / 3)).toNat
          ([10, 20, 30, 40, 50] : List Nat).length) =
      (([10, 20, 30, 40, 50] : List Nat).take
        (bounced_visits 3 (1 / 3)).toNat).map (fun e => [e]) := by
  have h := bounce_partition Nat [10, 20, 30, 40, 50] 3 (1 / 3) (by decide)
    (by norm_num) (by norm_num) (by norm_num)
  exact h.1

/-- Witness for C10: full consumption at `b = 1/3` and truncation to the
first `V` events at `b = 1`. -/
theorem composer_conservation_witness :
    (create_session_visits Nat [10, 20, 30, 40, 50] 3 (1 / 3)).flatten =
      [10, 20, 30, 40, 50] ∧
    (create_session_visits Nat [10, 20, 30, 40, 50] 3 1).flatten =
      ([10, 20, 30, 40, 50] : List Nat).take ((3 : ℤ)).toNat := by
  constructor
  · refine composer_conservation.1 Nat _ 3 (1 / 3) (by decide) ?_
    norm_num [bounced_visits, pyRound_eq]
  · refine composer_conservation.2 Nat _ 3 1 (by norm_num) (by norm_num)
      (by norm_num) ?_
    norm_num [bounced_visits, pyRound_eq]
